import Mathlib

/-!
# Repository cache of the blog server (`cmd/main/main.go`)

Shallow embedding of `get_repositories`, `cache_repos` and `repos_from_cache`.
The Redis server, the HTTP endpoint and the Go standard library (`time`, `sort`,
`encoding/json`) are not code of the program.  The Redis server is modelled by a
small store of hashes with a time to live; everything the program cannot decide
(the answers of the HTTP endpoint, which store command fails, in which order `KEYS`
lists the keys) and the library routines `time.Parse`, `Time.MarshalJSON` and
`sort.Slice` are fields of an environment `Env`, over which the theorems quantify.
-/

namespace Blog

/-! ## Go values -/

/-- Go slice value: `none` is the nil slice, `some l` a non-nil slice with elements `l`. -/
abbrev Slice (α : Type) := Option (List α)

/-- Elements of a slice; the nil slice has none. -/
def elems {α : Type} (s : Slice α) : List α := s.getD []

/-- Builtin `append(s, x)`: the result is never nil. -/
def goAppend {α : Type} (s : Slice α) (x : α) : Slice α := some (elems s ++ [x])

/-- Go `map[string]string` (also a Redis hash): the first binding of a key is the
binding. -/
abbrev Dict := List (String × String)

/-- Index expression `m[k]` of a Go map: a missing key reads as the empty string. -/
def mapIndex (m : Dict) (k : String) : String := (List.lookup k m).getD ""

/-- Assignment `m[k] = v` on an association list: the binding is replaced in place, a new
key is added at the end. -/
def assocSet {β : Type} (k : String) (v : β) : List (String × β) → List (String × β)
  | [] => [(k, v)]
  | (k', v') :: rest => if k' = k then (k, v) :: rest else (k', v') :: assocSet k v rest

/-- Instant of a `time.Time`, in nanoseconds since January 1, year 1, 00:00:00 UTC, the
instant of the zero value `time.Time{}`.  The location is not modelled: the program only
compares instants. -/
structure Time where
  nsec : Int
  deriving DecidableEq

/-- Zero value `time.Time{}`, which `time.Parse` returns together with an error. -/
def Time.zero : Time := ⟨0⟩

/-- Unix epoch, 1970-01-01T00:00:00Z. -/
def Time.epoch : Time := ⟨62135596800 * 1000000000⟩

/-- Method `t.After(u)`: the instant `t` is after `u`. -/
def Time.After (t u : Time) : Bool := decide (u.nsec < t.nsec)

/-- Record `Repo` of the source. -/
structure Repo where
  Name : String
  Url : String
  Description : String
  UpdateDate : Time
  deriving DecidableEq

/-- Constant `REPO_REDIS_KEY`. -/
def REPO_REDIS_KEY : String := "REPO:"

/-- Address of the list request of `get_repositories`. -/
def listUrl : String := "https://api.github.com/users/gr4b4rz/repos"

/-- Comparison passed to `sort.Slice` at both call sites:
`repos[i].UpdateDate.After(repos[j].UpdateDate)`. -/
def lessAfter (a b : Repo) : Bool := a.UpdateDate.After b.UpdateDate

/-- Decimal digit as a character. -/
def digitChar (d : Nat) : Char := Char.ofNat (48 + d)

/-- Decimal digits of `n`, most significant first; `fuel` bounds the number of digits. -/
def decimal : Nat → Nat → List Char
  | 0, _ => []
  | fuel + 1, n => if n < 10 then [digitChar n] else decimal fuel (n / 10) ++ [digitChar (n % 10)]

/-- Function `strconv.Itoa` on a non-negative index: the decimal rendering. -/
def Itoa (n : Nat) : String := ⟨decimal (n + 1) n⟩

/-! ## The Redis store -/

/-- Value of a key: a hash and the remaining time to live in seconds (`none`: the key
does not expire). -/
structure Entry where
  hash : Dict
  ttl : Option Nat
  deriving DecidableEq

/-- State of the Redis server: the keys holding a hash. -/
abbrev Store := List (String × Entry)

/-- Write commands the program issues. -/
inductive Cmd where
  | hset (key : String) (values : Dict)
  | expire (key : String) (seconds : Nat)
  deriving DecidableEq

/-- Glob match of `KEYS` for a pattern of literal characters with an optional final `*`,
the only kind of pattern the program sends. -/
def globMatch : List Char → List Char → Bool
  | [], [] => true
  | [], _ :: _ => false
  | p :: ps, cs =>
    if p = '*' ∧ ps = [] then true
    else match cs with
      | [] => false
      | c :: cs' => p == c && globMatch ps cs'

/-- Effect of `HSET key field value ...` on the server: the fields are added to the hash
of the key (created when absent, its time to live kept); with no field at all the server
rejects the command (`none`). -/
def storeHSet (s : Store) (key : String) (values : Dict) : Option Store :=
  if values = [] then none
  else
    let old : Entry := (List.lookup key s).getD ⟨[], none⟩
    some (assocSet key ⟨values.foldl (fun h fv => assocSet fv.1 fv.2 h) old.hash, old.ttl⟩ s)

/-- Effect of `EXPIRE key seconds` (positive `seconds`) on the server: an existing key gets
the time to live, a missing key is left missing. -/
def storeExpire (s : Store) (key : String) (seconds : Nat) : Store :=
  match List.lookup key s with
  | none => s
  | some e => assocSet key ⟨e.hash, some seconds⟩ s

/-! ## Environment and state -/

/-- Response of `http.Get` once `io.ReadAll` and `json.Unmarshal` have run on its body:
`readErr` says that `io.ReadAll` returned an error, `asList` is what `json.Unmarshal`
leaves in a `[]map[string]string`, `asObj` what it leaves in a `map[string]string`. -/
structure Response where
  readErr : Bool
  asList : List Dict
  asObj : Dict
  deriving DecidableEq

/-- Everything outside the program.
* `httpGet n url`: answer to the request for `url` issued after `n` earlier requests;
  `none` is an error of `http.Get` (the response pointer is nil).
* `parseRFC3339`: `time.Parse(time.RFC3339, ·)`; `none` is an error.
* `marshalTime`: `Time.MarshalJSON` without the quotes, the string `json.Marshal` writes
  for `UpdateDate`; `none` is an error.
* `sortSlice`: `sort.Slice` with the comparison on elements.
* `fault n`: the store command issued after `n` earlier commands fails.
* `keysOrder`: the order in which `KEYS` lists the matching keys. -/
structure Env where
  httpGet : Nat → String → Option Response
  parseRFC3339 : String → Option Time
  marshalTime : Time → Option String
  sortSlice : (Repo → Repo → Bool) → List Repo → List Repo
  fault : Nat → Bool
  keysOrder : List String → List String

/-- State the program acts on: the Redis store, the number of store commands issued, the
lines printed with `fmt.Printf` (as format strings) and the URLs requested. -/
structure World where
  store : Store
  clock : Nat
  log : List String
  reqs : List String
  deriving DecidableEq

/-- Result of a call that may panic. -/
inductive Outcome (α : Type) where
  | returned (v : α)
  | panicked
  deriving DecidableEq

/-- One store command has been sent. -/
def tick (w : World) : World := { w with clock := w.clock + 1 }

/-- Run one write command on the client; the boolean is the error of the command. -/
def execCmd (env : Env) (w : World) : Cmd → Bool × World
  | .hset key values =>
    if env.fault w.clock then (true, tick w)
    else match storeHSet w.store key values with
      | none => (true, tick w)
      | some s => (false, tick { w with store := s })
  | .expire key seconds =>
    if env.fault w.clock then (true, tick w)
    else (false, tick { w with store := storeExpire w.store key seconds })

/-- Method `pipeline.Exec`: sends the queued commands in order; the boolean is its error,
set when a queued command failed. -/
def pipelineExec (env : Env) : List Cmd → World → Bool × World
  | [], w => (false, w)
  | c :: cs, w =>
    let r := execCmd env w c
    let rest := pipelineExec env cs r.2
    (r.1 || rest.1, rest.2)

/-- Call `rdb.Keys(ctx, pattern).Result()`: `none` is an error. -/
def rdbKeys (env : Env) (w : World) (pattern : String) : Option (List String) × World :=
  if env.fault w.clock then (none, tick w)
  else
    (some (env.keysOrder (((w.store.map Prod.fst).dedup).filter
      (fun k => globMatch pattern.data k.data))), tick w)

/-- Call `rdb.HGetAll(ctx, key).Result()`: `none` is an error; a missing key has an empty
hash. -/
def rdbHGetAll (env : Env) (w : World) (key : String) : Option Dict × World :=
  if env.fault w.clock then (none, tick w)
  else (some (((List.lookup key w.store).map Entry.hash).getD []), tick w)

/-! ## The program -/

/-- Map `kv_map` of `cache_repos`: `json.Marshal(repo)` read back by `json.Unmarshal`
into a `map[string]interface{}`; strings are sequences of Unicode characters, which the two
routines hand back unchanged.  When the time cannot be marshalled, `json.Marshal` fails,
`inrec` is empty and the map stays nil. -/
def kvMap (env : Env) (repo : Repo) : Dict :=
  match env.marshalTime repo.UpdateDate with
  | some s => [("Name", repo.Name), ("Url", repo.Url), ("Description", repo.Description),
      ("UpdateDate", s)]
  | none => []

/-- Loop of `cache_repos` from index `idx` on: `rdb.HSet` and `rdb.Expire` run their
command on the client at once, and `pipeline.Process` queues the same command. -/
def cache_repos_loop (env : Env) : Nat → List Repo → World → List Cmd → World × List Cmd
  | _, [], w, pipeline => (w, pipeline)
  | idx, repo :: rest, w, pipeline =>
    let key := REPO_REDIS_KEY ++ Itoa idx
    let kv_map := kvMap env repo
    let w1 := (execCmd env w (.hset key kv_map)).2
    let pipeline1 := pipeline ++ [.hset key kv_map]
    let w2 := (execCmd env w1 (.expire key (24 * 3600))).2
    let pipeline2 := pipeline1 ++ [.expire key (24 * 3600)]
    cache_repos_loop env (idx + 1) rest w2 pipeline2

/-- Function `cache_repos` of the source. -/
def cache_repos (env : Env) (w : World) (repos : Slice Repo) : World :=
  let r := cache_repos_loop env 0 (elems repos) w []
  let x := pipelineExec env r.2 r.1
  if x.1 then
    { x.2 with log := x.2.log ++ ["Error when writing repositories data in the redis cache"] }
  else x.2

/-- Loop of `repos_from_cache` over the keys; `none` is the `return nil` inside the loop. -/
def repos_from_cache_loop (env : Env) :
    List String → World → Slice Repo → Option (Slice Repo) × World
  | [], w, repos => (some repos, w)
  | repo_key :: rest, w, repos =>
    match rdbHGetAll env w repo_key with
    | (none, w1) => (none, w1)
    | (some val, w1) =>
      let time_date := (env.parseRFC3339 (mapIndex val "UpdateDate")).getD Time.zero
      repos_from_cache_loop env rest w1
        (goAppend repos ⟨mapIndex val "Name", mapIndex val "Url", mapIndex val "Description",
          time_date⟩)

/-- Function `repos_from_cache` of the source. -/
def repos_from_cache (env : Env) (w : World) : Slice Repo × World :=
  match rdbKeys env w (REPO_REDIS_KEY ++ "*") with
  | (none, w1) => (none, w1)
  | (some repo_keys, w1) =>
    if repo_keys.length = 0 then (none, w1)
    else
      match repos_from_cache_loop env repo_keys w1 none with
      | (none, w2) => (none, w2)
      | (some repos, w2) => (repos.map (env.sortSlice lessAfter), w2)

/-- Calls `http.Get(url)` and `io.ReadAll(res.Body)` with their error branches, which only
print.  After an error of `http.Get` the response is nil and reading `res.Body` panics:
the result is `none`. -/
def fetchBody (env : Env) (w : World) (url : String) : Option Response × World :=
  match env.httpGet w.reqs.length url with
  | none =>
    (none, { w with reqs := w.reqs ++ [url],
                    log := w.log ++ ["error making http get request: %s\n"] })
  | some res =>
    (some res, { w with reqs := w.reqs ++ [url],
                        log := if res.readErr then
                            w.log ++ ["client: could not read response body: %s\n"]
                          else w.log })

/-- Loop of `get_repositories` over the summaries of the list response. -/
def get_repositories_loop (env : Env) :
    List Dict → World → Slice Repo → Outcome (Slice Repo) × World
  | [], w, repos => (.returned repos, w)
  | elem :: rest, w, repos =>
    match fetchBody env w (mapIndex elem "url") with
    | (none, w1) => (.panicked, w1)
    | (some res, w1) =>
      let repo_json := res.asObj
      match env.parseRFC3339 (mapIndex repo_json "pushed_at") with
      | some time_date =>
        get_repositories_loop env rest w1
          (goAppend repos ⟨mapIndex elem "name", mapIndex elem "html_url",
            mapIndex repo_json "description", time_date⟩)
      | none =>
        get_repositories_loop env rest
          { w1 with log := w1.log ++ ["Could not parse last commit date: %s\n"] }
          (goAppend repos ⟨mapIndex elem "name", mapIndex elem "html_url",
            mapIndex repo_json "description", Time.zero⟩)

/-- Function `get_repositories` of the source. -/
def get_repositories (env : Env) (w : World) : Outcome (Slice Repo) × World :=
  match repos_from_cache env w with
  | (some cached_repos, w1) => (.returned (some cached_repos), w1)
  | (none, w1) =>
    match fetchBody env w1 listUrl with
    | (none, w2) => (.panicked, w2)
    | (some res, w2) =>
      match get_repositories_loop env res.asList w2 none with
      | (.panicked, w3) => (.panicked, w3)
      | (.returned repos, w3) =>
        let sorted := repos.map (env.sortSlice lessAfter)
        (.returned sorted, cache_repos env w3 sorted)

/-! ## Contracts of the library routines -/

/-- Contract of `sort.Slice`: for a comparison that is a strict weak ordering the result
is a rearrangement of the input in which no element is less than an earlier one.  The
order of equal elements is not fixed. -/
def SortsSlices (sort : (Repo → Repo → Bool) → List Repo → List Repo) : Prop :=
  ∀ less : Repo → Repo → Bool,
    (∀ a b, less a b = true → less b a = false) →
    (∀ a b c, less a c = true → less a b = true ∨ less b c = true) →
    ∀ l, (sort less l).Perm l ∧ (sort less l).Pairwise (fun a b => less b a = false)

/-- Descending order by `UpdateDate`: no record is after an earlier one of the list. -/
def Descending (l : List Repo) : Prop :=
  l.Pairwise (fun a b => b.UpdateDate.After a.UpdateDate = false)

/-- The hash stored under a key, read the way `repos_from_cache` reads it. -/
def decodeRepo (env : Env) (val : Dict) : Repo :=
  ⟨mapIndex val "Name", mapIndex val "Url", mapIndex val "Description",
    (env.parseRFC3339 (mapIndex val "UpdateDate")).getD Time.zero⟩

/-- Record `get_repositories` builds from a summary and the decoded detail object. -/
def buildRepo (env : Env) (elem repo_json : Dict) : Repo :=
  ⟨mapIndex elem "name", mapIndex elem "html_url", mapIndex repo_json "description",
    (env.parseRFC3339 (mapIndex repo_json "pushed_at")).getD Time.zero⟩

/-- Decoded detail object of the summary `elem` when its request is the one issued after
`n` earlier requests; a missing response counts as the empty object. -/
def detailOf (env : Env) (n : Nat) (elem : Dict) : Dict :=
  ((env.httpGet n (mapIndex elem "url")).map Response.asObj).getD []

/-- Records built from the summaries, the first detail request being the one issued after
`n` earlier requests. -/
def builtRepos (env : Env) : Nat → List Dict → List Repo
  | _, [] => []
  | n, elem :: rest => buildRepo env elem (detailOf env n elem) :: builtRepos env (n + 1) rest

/-- Hash value of the key a key names, empty when the key is missing. -/
def hashAt (s : Store) (key : String) : Dict := ((List.lookup key s).map Entry.hash).getD []

/-- Keys of the store matching the pattern of the read path, each once. -/
def repoKeys (s : Store) : List String :=
  ((s.map Prod.fst).dedup).filter (fun k => globMatch (REPO_REDIS_KEY ++ "*").data k.data)

/-! ## Sample instances of the library routines -/

/-- Insertion of `x` before the first element it is less than. -/
def insertBefore (less : Repo → Repo → Bool) (x : Repo) : List Repo → List Repo
  | [] => [x]
  | y :: ys => if less x y then x :: y :: ys else y :: insertBefore less x ys

/-- Insertion sort, the routine `sort.Slice` runs on a short slice. -/
def insertionSort (less : Repo → Repo → Bool) (l : List Repo) : List Repo :=
  l.foldl (fun acc x => insertBefore less x acc) []

/-- Value of a decimal digit character. -/
def digitVal (c : Char) : Option Nat :=
  if 48 ≤ c.toNat ∧ c.toNat ≤ 57 then some (c.toNat - 48) else none

/-- Value of two decimal digit characters. -/
def twoDigits (a b : Char) : Option Nat := do
  let x ← digitVal a
  let y ← digitVal b
  pure (10 * x + y)

/-- Leap year of the proleptic Gregorian calendar. -/
def isLeap (y : Nat) : Bool := y % 4 = 0 ∧ (y % 100 ≠ 0 ∨ y % 400 = 0)

/-- Number of days of a month. -/
def daysIn (y m : Nat) : Nat :=
  if m = 2 then (if isLeap y then 29 else 28)
  else if m = 4 ∨ m = 6 ∨ m = 9 ∨ m = 11 then 30 else 31

/-- Days from January 1 of year 1 to the given date. -/
def daysFromCivil (y m d : Nat) : Int :=
  let y1 : Int := if m ≤ 2 then (y : Int) - 1 else y
  let era : Int := y1 / 400
  let yoe : Int := y1 - era * 400
  let mp : Int := if m ≤ 2 then (m : Int) + 9 else (m : Int) - 3
  let doy : Int := (153 * mp + 2) / 5 + ((d : Int) - 1)
  let doe : Int := yoe * 365 + yoe / 4 - yoe / 100 + doy
  era * 146097 + doe - 306

/-- Date (year, month, day) of a number of days from January 1 of year 1. -/
def civilFromDays (days : Int) : Int × Int × Int :=
  let z : Int := days + 306
  let era : Int := z / 146097
  let doe : Int := z - era * 146097
  let yoe : Int := (doe - doe / 1460 + doe / 36524 - doe / 146096) / 365
  let doy : Int := doe - (365 * yoe + yoe / 4 - yoe / 100)
  let mp : Int := (5 * doy + 2) / 153
  let d : Int := doy - (153 * mp + 2) / 5 + 1
  let m : Int := if mp < 10 then mp + 3 else mp - 9
  let y : Int := yoe + era * 400 + (if m ≤ 2 then 1 else 0)
  (y, m, d)

/-- Nanoseconds of a fraction of a second written as digits: the first nine count. -/
def fracNanos : Nat → List Char → Option Nat
  | _, [] => some 0
  | 0, c :: cs => do
    let _ ← digitVal c
    fracNanos 0 cs
  | k + 1, c :: cs => do
    let x ← digitVal c
    let r ← fracNanos k cs
    pure (x * 10 ^ k + r)

/-- Zone of an RFC 3339 time: `Z` or a numeric offset, in seconds east of UTC. -/
def zoneOffset : List Char → Option Int
  | ['Z'] => some 0
  | [sg, h1, h2, ':', m1, m2] => do
    let h ← twoDigits h1 h2
    let m ← twoDigits m1 m2
    if h ≤ 23 ∧ m ≤ 59 then
      if sg = '+' then some ((h * 3600 + m * 60 : Nat) : Int)
      else if sg = '-' then some (-((h * 3600 + m * 60 : Nat) : Int))
      else none
    else none
  | _ => none

/-- Fraction of a second and zone that follow the seconds of an RFC 3339 time. -/
def fracAndZone (rest : List Char) : Option (Nat × Int) :=
  match rest with
  | '.' :: more =>
    let ds := more.takeWhile (fun c => (digitVal c).isSome)
    if ds = [] then none
    else do
      let ns ← fracNanos 9 ds
      let off ← zoneOffset (more.dropWhile (fun c => (digitVal c).isSome))
      pure (ns, off)
  | _ => do
    let off ← zoneOffset rest
    pure (0, off)

/-- Sample `time.Parse(time.RFC3339, ·)`: the `date-time` grammar of RFC 3339 with `T`
and `Z` in upper case. -/
def rfc3339Parse (s : String) : Option Time :=
  match s.data with
  | y1 :: y2 :: y3 :: y4 :: '-' :: m1 :: m2 :: '-' :: d1 :: d2 :: 'T' ::
      h1 :: h2 :: ':' :: i1 :: i2 :: ':' :: s1 :: s2 :: rest => do
    let yh ← twoDigits y1 y2
    let yl ← twoDigits y3 y4
    let mo ← twoDigits m1 m2
    let dd ← twoDigits d1 d2
    let hh ← twoDigits h1 h2
    let mi ← twoDigits i1 i2
    let ss ← twoDigits s1 s2
    let fz ← fracAndZone rest
    let yy := 100 * yh + yl
    if 1 ≤ mo ∧ mo ≤ 12 ∧ 1 ≤ dd ∧ dd ≤ daysIn yy mo ∧ hh ≤ 23 ∧ mi ≤ 59 ∧ ss ≤ 59 then
      some ⟨((daysFromCivil yy mo dd * 86400 + ((hh * 3600 + mi * 60 + ss : Nat) : Int)
        - fz.2) * 1000000000) + (fz.1 : Int)⟩
    else none
  | _ => none

/-- Digits of `n` padded with zeros on the left to `width` characters. -/
def padded (width n : Nat) : List Char :=
  let ds := decimal (n + 1) n
  List.replicate (width - ds.length) '0' ++ ds

/-- Digits of a fraction of a second in nanoseconds, without the trailing zeros. -/
def fracDigits (ns : Nat) : List Char :=
  if ns = 0 then []
  else '.' :: ((padded 9 ns).reverse.dropWhile (fun c => c = '0')).reverse

/-- Sample `Time.MarshalJSON` for a time in UTC: the RFC 3339 text with nanoseconds, an
error when the year is outside 0..9999. -/
def rfc3339Marshal (t : Time) : Option String :=
  let secs : Int := t.nsec / 1000000000
  let ns : Nat := (t.nsec % 1000000000).toNat
  let days : Int := secs / 86400
  let sod : Nat := (secs % 86400).toNat
  let ymd := civilFromDays days
  if 0 ≤ ymd.1 ∧ ymd.1 ≤ 9999 then
    some ⟨padded 4 ymd.1.toNat ++ ['-'] ++ padded 2 ymd.2.1.toNat ++ ['-'] ++
      padded 2 ymd.2.2.toNat ++ ['T'] ++ padded 2 (sod / 3600) ++ [':'] ++
      padded 2 (sod % 3600 / 60) ++ [':'] ++ padded 2 (sod % 60) ++ fracDigits ns ++ ['Z']⟩
  else none

/-- Sample environment: the given responses, the sample time routines, insertion sort, no
failing store command, keys listed in store order. -/
def sampleEnv (httpGet : Nat → String → Option Response) : Env :=
  { httpGet := httpGet
    parseRFC3339 := rfc3339Parse
    marshalTime := rfc3339Marshal
    sortSlice := insertionSort
    fault := fun _ => false
    keysOrder := fun ks => ks }

/-- World with an empty store, before any command, line or request. -/
def emptyWorld : World := ⟨[], 0, [], []⟩

/-- Number a string of decimal digits denotes. -/
def digitsValue (l : List Char) : Nat := l.foldl (fun a c => a * 10 + (c.toNat - 48)) 0

/-- Key a write command acts on. -/
def cmdKey : Cmd → String
  | .hset key _ => key
  | .expire key _ => key

/-- Commands `cache_repos` issues for the records from index `idx` on, in order. -/
def cmdsFrom (env : Env) : Nat → List Repo → List Cmd
  | _, [] => []
  | idx, repo :: rest =>
    .hset (REPO_REDIS_KEY ++ Itoa idx) (kvMap env repo) ::
      .expire (REPO_REDIS_KEY ++ Itoa idx) (24 * 3600) :: cmdsFrom env (idx + 1) rest

/-- The entry holds the fields of the record and expires after 24 hours. -/
def HoldsRepo (env : Env) (e : Entry) (r : Repo) : Prop :=
  mapIndex e.hash "Name" = r.Name ∧ mapIndex e.hash "Url" = r.Url ∧
  mapIndex e.hash "Description" = r.Description ∧
  env.marshalTime r.UpdateDate = some (mapIndex e.hash "UpdateDate") ∧
  e.ttl = some (24 * 3600)

/-- Keys `cache_repos` writes for a sequence of `n` records. -/
def writtenKeys (n : Nat) : List String := (List.range n).map (fun i => REPO_REDIS_KEY ++ Itoa i)

/-- Keys of the store under the pattern of the read path that a write of `n` records does
not write. -/
def staleKeys (s : Store) (n : Nat) : List String :=
  (repoKeys s).filter (fun k => decide (k ∉ writtenKeys n))

/-! ## Sample inputs -/

/-- Summary object of a repository of the given name, as the list endpoint returns it. -/
def summary (name : String) : Dict :=
  [("name", name), ("html_url", "https://github.com/gr4b4rz/" ++ name),
    ("url", "https://api.github.com/repos/gr4b4rz/" ++ name)]

/-- Detail object with a description and a push date. -/
def detail (description pushed_at : String) : Dict :=
  [("description", description), ("pushed_at", pushed_at)]

/-- Responses of the end-to-end example: repositories `a` and `b`, pushed on 2023-01-01
and on 2023-06-01. -/
def exampleHttp : Nat → String → Option Response := fun _ url =>
  if url = listUrl then some ⟨false, [summary "a", summary "b"], []⟩
  else if url = "https://api.github.com/repos/gr4b4rz/a" then
    some ⟨false, [], detail "first" "2023-01-01T00:00:00Z"⟩
  else if url = "https://api.github.com/repos/gr4b4rz/b" then
    some ⟨false, [], detail "second" "2023-06-01T00:00:00Z"⟩
  else none

/-- Record of repository `a` of the example. -/
def repoA : Repo :=
  ⟨"a", "https://github.com/gr4b4rz/a", "first", ⟨63808128000 * 1000000000⟩⟩

/-- Record of repository `b` of the example. -/
def repoB : Repo :=
  ⟨"b", "https://github.com/gr4b4rz/b", "second", ⟨63821174400 * 1000000000⟩⟩

/-- No response at all: every request fails. -/
def noHttp : Nat → String → Option Response := fun _ _ => none

/-- Three summaries; the body of the detail of the second cannot be read and decodes to
nothing. -/
def brokenDetailHttp : Nat → String → Option Response := fun _ url =>
  if url = listUrl then some ⟨false, [summary "one", summary "two", summary "three"], []⟩
  else if url = "https://api.github.com/repos/gr4b4rz/one" then
    some ⟨false, [], detail "first" "2023-01-01T00:00:00Z"⟩
  else if url = "https://api.github.com/repos/gr4b4rz/two" then some ⟨true, [], []⟩
  else if url = "https://api.github.com/repos/gr4b4rz/three" then
    some ⟨false, [], detail "third" "2023-06-01T00:00:00Z"⟩
  else none

/-- Three summaries; the request for the detail of the second fails. -/
def failedDetailHttp : Nat → String → Option Response := fun _ url =>
  if url = listUrl then some ⟨false, [summary "one", summary "two", summary "three"], []⟩
  else if url = "https://api.github.com/repos/gr4b4rz/one" then
    some ⟨false, [], detail "first" "2023-01-01T00:00:00Z"⟩
  else if url = "https://api.github.com/repos/gr4b4rz/three" then
    some ⟨false, [], detail "third" "2023-06-01T00:00:00Z"⟩
  else none

/-- One summary whose detail carries a push date that is not RFC 3339. -/
def badDateHttp : Nat → String → Option Response := fun _ url =>
  if url = listUrl then some ⟨false, [summary "one"], []⟩
  else if url = "https://api.github.com/repos/gr4b4rz/one" then
    some ⟨false, [], detail "first" "01/06/2023"⟩
  else none

/-- World whose store holds the given entries. -/
def worldOf (s : Store) : World := ⟨s, 0, [], []⟩

/-- Entry of a record with the given `UpdateDate` text and no expiry. -/
def entryOf (name url description date : String) : Entry :=
  ⟨[("Name", name), ("Url", url), ("Description", description), ("UpdateDate", date)], none⟩

/-- Environment of the end-to-end example with the given `sort.Slice`. -/
def exampleEnv (sort : (Repo → Repo → Bool) → List Repo → List Repo) : Env :=
  { sampleEnv exampleHttp with sortSlice := sort }

/-- Sample environment in which every store command after the first one fails: the key
enumeration succeeds and every write fails. -/
def failingWrites (httpGet : Nat → String → Option Response) : Env :=
  { sampleEnv httpGet with fault := fun n => decide (1 ≤ n) }

/-- Sample environment in which the first `n` store commands fail and the later ones
succeed: with `n` four times the number of records (two commands per record, each run once
at the call and once by `pipeline.Exec`), every write of `cache_repos` fails and the
following read succeeds. -/
def failingFirst (n : Nat) (httpGet : Nat → String → Option Response) : Env :=
  { sampleEnv httpGet with fault := fun c => decide (c < n) }

/-- Record whose `UpdateDate` lies in year 10000, which `Time.MarshalJSON` refuses. -/
def farRepo : Repo :=
  ⟨"far", "https://github.com/gr4b4rz/far", "late", ⟨315537897600 * 1000000000⟩⟩

/-- Store holding the stale key `REPO:2` only. -/
def staleStore : Store := [("REPO:2", entryOf "old" "u" "d" "2022-01-01T00:00:00Z")]

/-! # Theorems -/

/-! ## Association lists and the store -/

theorem lookup_cons_eq {β : Type} (k a : String) (b : β) (l : List (String × β)) :
    List.lookup k ((a, b) :: l) = if k = a then some b else List.lookup k l := by
  by_cases h : k = a
  · simp [List.lookup, h]
  · have hne : (k == a) = false := by simpa using h
    simp [List.lookup, hne, h]

theorem lookup_assocSet {β : Type} (k k' : String) (v : β) (l : List (String × β)) :
    List.lookup k' (assocSet k v l) = if k' = k then some v else List.lookup k' l := by
  induction l with
  | nil => simp [assocSet, lookup_cons_eq]
  | cons p rest ih =>
    obtain ⟨a, b⟩ := p
    by_cases hak : a = k
    · subst hak
      by_cases h : k' = a
      · simp [assocSet, lookup_cons_eq, h]
      · simp [assocSet, lookup_cons_eq, h]
    · simp only [assocSet, hak, if_false, lookup_cons_eq, ih]
      by_cases h2 : k' = a
      · subst h2
        simp [hak]
      · simp [h2]

theorem mem_keys_assocSet {β : Type} (k k' : String) (v : β) (l : List (String × β)) :
    k' ∈ (assocSet k v l).map Prod.fst ↔ k' = k ∨ k' ∈ l.map Prod.fst := by
  induction l with
  | nil => simp [assocSet]
  | cons p rest ih =>
    obtain ⟨a, b⟩ := p
    by_cases hak : a = k
    · subst hak
      simp [assocSet]
    · simp only [assocSet, hak, if_false, List.map_cons, List.mem_cons, ih]
      tauto

theorem mem_keys_iff_lookup {β : Type} (k : String) (l : List (String × β)) :
    k ∈ l.map Prod.fst ↔ ∃ e, List.lookup k l = some e := by
  induction l with
  | nil => simp
  | cons p rest ih =>
    obtain ⟨a, b⟩ := p
    by_cases hka : k = a
    · simp [lookup_cons_eq, hka]
    · simp only [List.map_cons, List.mem_cons, hka, false_or, lookup_cons_eq, if_false, ih]

/-! ## Keys -/

theorem digitChar_toNat (d : Nat) (h : d < 10) : (digitChar d).toNat - 48 = d := by
  interval_cases d <;> rfl

theorem digitsValue_decimal (fuel n : Nat) (h : n < fuel) : digitsValue (decimal fuel n) = n := by
  induction fuel generalizing n with
  | zero => omega
  | succ f ih =>
    by_cases hn : n < 10
    · simp [decimal, hn, digitsValue, digitChar_toNat n hn]
    · have hdiv : n / 10 < f := by omega
      have hmod : n % 10 < 10 := Nat.mod_lt _ (by decide)
      have := ih (n / 10) hdiv
      simp only [digitsValue] at this
      simp only [decimal, hn, if_false, digitsValue, List.foldl_append, List.foldl_cons,
        List.foldl_nil, this, digitChar_toNat _ hmod]
      omega

theorem Itoa_injective (i j : Nat) (h : Itoa i = Itoa j) : i = j := by
  have h1 : decimal (i + 1) i = decimal (j + 1) j := congrArg String.data h
  have h2 := congrArg digitsValue h1
  rwa [digitsValue_decimal _ _ (Nat.lt_succ_self i), digitsValue_decimal _ _ (Nat.lt_succ_self j)]
    at h2

theorem repoKey_injective (i j : Nat) (h : REPO_REDIS_KEY ++ Itoa i = REPO_REDIS_KEY ++ Itoa j) :
    i = j := by
  apply Itoa_injective
  have h1 := congrArg String.data h
  simp only [String.data_append] at h1
  exact String.ext (List.append_cancel_left h1)

theorem globMatch_repo (k : List Char) :
    globMatch (REPO_REDIS_KEY ++ "*").data k = REPO_REDIS_KEY.data.isPrefixOf k := by
  have hp : (REPO_REDIS_KEY ++ "*").data = ['R', 'E', 'P', 'O', ':', '*'] := by decide
  have hq : REPO_REDIS_KEY.data = ['R', 'E', 'P', 'O', ':'] := by decide
  rw [hp, hq]
  rcases k with _ | ⟨c1, k⟩
  · rfl
  rcases k with _ | ⟨c2, k⟩
  · by_cases h1 : 'R' = c1 <;> simp [globMatch, List.isPrefixOf, h1]
  rcases k with _ | ⟨c3, k⟩
  · by_cases h1 : 'R' = c1 <;> by_cases h2 : 'E' = c2 <;> simp [globMatch, List.isPrefixOf, h1, h2]
  rcases k with _ | ⟨c4, k⟩
  · by_cases h1 : 'R' = c1 <;> by_cases h2 : 'E' = c2 <;> by_cases h3 : 'P' = c3 <;>
      simp [globMatch, List.isPrefixOf, h1, h2, h3]
  rcases k with _ | ⟨c5, k⟩
  · by_cases h1 : 'R' = c1 <;> by_cases h2 : 'E' = c2 <;> by_cases h3 : 'P' = c3 <;>
      by_cases h4 : 'O' = c4 <;> simp [globMatch, List.isPrefixOf, h1, h2, h3, h4]
  · by_cases h1 : 'R' = c1 <;> by_cases h2 : 'E' = c2 <;> by_cases h3 : 'P' = c3 <;>
      by_cases h4 : 'O' = c4 <;> by_cases h5 : ':' = c5 <;>
      simp [globMatch, List.isPrefixOf, h1, h2, h3, h4, h5]

theorem globMatch_repoKey (i : Nat) :
    globMatch (REPO_REDIS_KEY ++ "*").data (REPO_REDIS_KEY ++ Itoa i).data = true := by
  rw [globMatch_repo]
  simp [String.data_append]

/-! ## Effect of the store commands on one key -/

theorem lookup_storeHSet (s s' : Store) (key k : String) (values : Dict)
    (h : storeHSet s key values = some s') :
    List.lookup k s' =
      if k = key then
        some ⟨values.foldl (fun h fv => assocSet fv.1 fv.2 h)
          ((List.lookup key s).getD ⟨[], none⟩).hash, ((List.lookup key s).getD ⟨[], none⟩).ttl⟩
      else List.lookup k s := by
  unfold storeHSet at h
  by_cases hv : values = []
  · simp [hv] at h
  · simp only [hv, if_false, Option.some.injEq] at h
    rw [← h, lookup_assocSet]

theorem lookup_storeExpire (s : Store) (key k : String) (seconds : Nat) :
    List.lookup k (storeExpire s key seconds) =
      if k = key then (List.lookup key s).map (fun e => ⟨e.hash, some seconds⟩)
      else List.lookup k s := by
  unfold storeExpire
  cases hl : List.lookup key s with
  | none =>
    by_cases hk : k = key
    · simp [hk, hl]
    · simp [hk]
  | some e => simp [lookup_assocSet]

/-! ## The write path -/

theorem execCmd_frame (env : Env) (w : World) (c : Cmd) :
    (execCmd env w c).2.log = w.log ∧ (execCmd env w c).2.reqs = w.reqs ∧
    (execCmd env w c).2.clock = w.clock + 1 := by
  cases c with
  | hset key values =>
    unfold execCmd
    by_cases hf : env.fault w.clock = true
    · simp [hf, tick]
    · cases hs : storeHSet w.store key values <;> simp [hf, hs, tick]
  | expire key seconds =>
    unfold execCmd
    by_cases hf : env.fault w.clock = true <;> simp [hf, tick]

theorem execCmd_lookup_other (env : Env) (w : World) (c : Cmd) (k : String)
    (hk : cmdKey c ≠ k) : List.lookup k (execCmd env w c).2.store = List.lookup k w.store := by
  have hk' : ¬ k = cmdKey c := fun h => hk h.symm
  cases c with
  | hset key values =>
    simp only [cmdKey] at hk'
    cases hf : env.fault w.clock with
    | true => simp [execCmd, hf, tick]
    | false =>
      cases hs : storeHSet w.store key values with
      | none => simp [execCmd, hf, hs, tick]
      | some s' =>
        have := lookup_storeHSet _ _ _ k _ hs
        simp [execCmd, hf, hs, tick, this, hk']
  | expire key seconds =>
    simp only [cmdKey] at hk'
    cases hf : env.fault w.clock with
    | true => simp [execCmd, hf, tick]
    | false => simp [execCmd, hf, tick, lookup_storeExpire, hk']

theorem pipelineExec_frame (env : Env) (cmds : List Cmd) (w : World) :
    (pipelineExec env cmds w).2.log = w.log ∧ (pipelineExec env cmds w).2.reqs = w.reqs ∧
    (pipelineExec env cmds w).2.clock = w.clock + cmds.length := by
  induction cmds generalizing w with
  | nil => simp [pipelineExec]
  | cons c cs ih =>
    obtain ⟨h1, h2, h3⟩ := execCmd_frame env w c
    obtain ⟨i1, i2, i3⟩ := ih (execCmd env w c).2
    simp only [pipelineExec, List.length_cons]
    refine ⟨i1.trans h1, i2.trans h2, ?_⟩
    rw [i3, h3]
    omega

theorem pipelineExec_lookup_other (env : Env) (cmds : List Cmd) (w : World) (k : String)
    (hk : ∀ c ∈ cmds, cmdKey c ≠ k) :
    List.lookup k (pipelineExec env cmds w).2.store = List.lookup k w.store := by
  induction cmds generalizing w with
  | nil => simp [pipelineExec]
  | cons c cs ih =>
    simp only [pipelineExec]
    rw [ih _ (fun c' hc' => hk c' (List.mem_cons_of_mem _ hc'))]
    exact execCmd_lookup_other env w c k (hk c (List.mem_cons_self _ _))

theorem cmdKey_cmdsFrom (env : Env) (idx : Nat) (rs : List Repo) (c : Cmd)
    (hc : c ∈ cmdsFrom env idx rs) :
    ∃ j, j < rs.length ∧ cmdKey c = REPO_REDIS_KEY ++ Itoa (idx + j) := by
  induction rs generalizing idx with
  | nil => simp [cmdsFrom] at hc
  | cons r rest ih =>
    simp only [cmdsFrom, List.mem_cons] at hc
    rcases hc with h | h | h
    · exact ⟨0, by simp, by simp [h, cmdKey]⟩
    · exact ⟨0, by simp, by simp [h, cmdKey]⟩
    · obtain ⟨j, hj, hjk⟩ := ih (idx + 1) h
      refine ⟨j + 1, by simpa using hj, ?_⟩
      rw [hjk]
      congr 2
      omega

theorem cache_repos_loop_eq (env : Env) (idx : Nat) (rs : List Repo) (w : World)
    (pipeline : List Cmd) :
    cache_repos_loop env idx rs w pipeline =
      ((pipelineExec env (cmdsFrom env idx rs) w).2, pipeline ++ cmdsFrom env idx rs) := by
  induction rs generalizing idx w pipeline with
  | nil => simp [cache_repos_loop, cmdsFrom, pipelineExec]
  | cons r rest ih =>
    simp [cache_repos_loop, cmdsFrom, pipelineExec, ih]

theorem kvMap_fields (a b c d : String) (h0 : Dict) :
    let h := ([("Name", a), ("Url", b), ("Description", c), ("UpdateDate", d)] : Dict).foldl
      (fun h fv => assocSet fv.1 fv.2 h) h0
    mapIndex h "Name" = a ∧ mapIndex h "Url" = b ∧ mapIndex h "Description" = c ∧
      mapIndex h "UpdateDate" = d := by
  simp [mapIndex, lookup_assocSet]

theorem execCmd_hset_ok (env : Env) (w : World) (key : String) (values : Dict)
    (h : (execCmd env w (.hset key values)).1 = false) :
    ∃ s', storeHSet w.store key values = some s' ∧
      (execCmd env w (.hset key values)).2.store = s' := by
  cases hf : env.fault w.clock with
  | true => simp [execCmd, hf] at h
  | false =>
    cases hs : storeHSet w.store key values with
    | none => simp [execCmd, hf, hs] at h
    | some s' => exact ⟨s', rfl, by simp [execCmd, hf, hs, tick]⟩

theorem execCmd_expire_ok (env : Env) (w : World) (key : String) (seconds : Nat)
    (h : (execCmd env w (.expire key seconds)).1 = false) :
    (execCmd env w (.expire key seconds)).2.store = storeExpire w.store key seconds := by
  cases hf : env.fault w.clock with
  | true => simp [execCmd, hf] at h
  | false => simp [execCmd, hf, tick]

theorem holdsRepo_after_hset_expire (env : Env) (w : World) (key : String) (r : Repo)
    (h1 : (execCmd env w (.hset key (kvMap env r))).1 = false)
    (h2 : (execCmd env (execCmd env w (.hset key (kvMap env r))).2
      (.expire key (24 * 3600))).1 = false) :
    ∃ e, List.lookup key (execCmd env (execCmd env w (.hset key (kvMap env r))).2
        (.expire key (24 * 3600))).2.store = some e ∧ HoldsRepo env e r := by
  obtain ⟨s', hs', hst⟩ := execCmd_hset_ok env w key _ h1
  have hl := lookup_storeHSet _ _ _ key _ hs'
  rw [execCmd_expire_ok env _ key _ h2, lookup_storeExpire, hst, hl]
  simp only [if_true, Option.map_some']
  refine ⟨_, rfl, ?_⟩
  cases hm : env.marshalTime r.UpdateDate with
  | none => simp [storeHSet, kvMap, hm] at hs'
  | some s =>
    obtain ⟨f1, f2, f3, f4⟩ := kvMap_fields r.Name r.Url r.Description s
      ((List.lookup key w.store).getD ⟨[], none⟩).hash
    simp only [kvMap, hm]
    exact ⟨f1, f2, f3, by rw [f4, hm], rfl⟩

theorem repoKey_ne_later (env : Env) (idx : Nat) (rest : List Repo) (c : Cmd)
    (hc : c ∈ cmdsFrom env (idx + 1) rest) : cmdKey c ≠ REPO_REDIS_KEY ++ Itoa idx := by
  obtain ⟨j, _, hj⟩ := cmdKey_cmdsFrom env (idx + 1) rest c hc
  intro h
  have := repoKey_injective _ _ (hj.symm.trans h)
  omega

theorem pipelineExec_holds (env : Env) (idx : Nat) (rs : List Repo) (w : World)
    (h : (pipelineExec env (cmdsFrom env idx rs) w).1 = false) (j : Nat) (hj : j < rs.length) :
    ∃ e, List.lookup (REPO_REDIS_KEY ++ Itoa (idx + j))
        (pipelineExec env (cmdsFrom env idx rs) w).2.store = some e ∧
      HoldsRepo env e (rs.get ⟨j, hj⟩) := by
  induction rs generalizing idx w j with
  | nil => simp at hj
  | cons r rest ih =>
    simp only [cmdsFrom, pipelineExec, Bool.or_eq_false_iff] at h
    obtain ⟨h1, h2, h3⟩ := h
    simp only [cmdsFrom, pipelineExec]
    cases j with
    | zero =>
      rw [Nat.add_zero, pipelineExec_lookup_other env _ _ _ (fun c hc => repoKey_ne_later env idx rest c hc)]
      exact holdsRepo_after_hset_expire env w _ r h1 h2
    | succ j =>
      have hj' : j < rest.length := by simpa using hj
      obtain ⟨e, he, hr⟩ := ih (idx + 1) _ h3 j hj'
      refine ⟨e, ?_, by simpa using hr⟩
      rw [← he]
      congr 3
      omega

theorem pipelineExec_ok (env : Env) (idx : Nat) (rs : List Repo) (w : World)
    (hfault : ∀ n, env.fault n = false)
    (hfmt : ∀ r ∈ rs, (env.marshalTime r.UpdateDate).isSome = true) :
    (pipelineExec env (cmdsFrom env idx rs) w).1 = false := by
  induction rs generalizing idx w with
  | nil => simp [cmdsFrom, pipelineExec]
  | cons r rest ih =>
    have hr := hfmt r (List.mem_cons_self _ _)
    obtain ⟨s, hs⟩ := Option.isSome_iff_exists.mp hr
    simp only [cmdsFrom, pipelineExec, Bool.or_eq_false_iff]
    refine ⟨?_, ?_, ih _ _ (fun r' hr' => hfmt r' (List.mem_cons_of_mem _ hr'))⟩
    · simp [execCmd, hfault, storeHSet, kvMap, hs]
    · simp [execCmd, hfault]

/-- Commands of one call of `cache_repos`. -/
theorem cache_repos_eq (env : Env) (w : World) (repos : Slice Repo) :
    cache_repos env w repos =
      (let cmds := cmdsFrom env 0 (elems repos)
       let x := pipelineExec env cmds (pipelineExec env cmds w).2
       if x.1 then
         { x.2 with
           log := x.2.log ++ ["Error when writing repositories data in the redis cache"] }
       else x.2) := by
  simp [cache_repos, cache_repos_loop_eq]

theorem cache_repos_store (env : Env) (w : World) (repos : Slice Repo) :
    (cache_repos env w repos).store =
      (pipelineExec env (cmdsFrom env 0 (elems repos))
        (pipelineExec env (cmdsFrom env 0 (elems repos)) w).2).2.store := by
  rw [cache_repos_eq]
  simp only
  split <;> rfl

theorem cache_repos_reqs (env : Env) (w : World) (repos : Slice Repo) :
    (cache_repos env w repos).reqs = w.reqs := by
  rw [cache_repos_eq]
  simp only
  split <;> simp [(pipelineExec_frame env _ _).2.1]

theorem cache_repos_log (env : Env) (w : World) (repos : Slice Repo) :
    (cache_repos env w repos).log =
      if (pipelineExec env (cmdsFrom env 0 (elems repos))
        (pipelineExec env (cmdsFrom env 0 (elems repos)) w).2).1 then
        w.log ++ ["Error when writing repositories data in the redis cache"]
      else w.log := by
  rw [cache_repos_eq]
  simp only
  split <;> simp [(pipelineExec_frame env _ _).1]

theorem cache_repos_lookup_other (env : Env) (w : World) (repos : Slice Repo) (k : String)
    (hk : ∀ i, i < (elems repos).length → k ≠ REPO_REDIS_KEY ++ Itoa i) :
    List.lookup k (cache_repos env w repos).store = List.lookup k w.store := by
  have hc : ∀ c ∈ cmdsFrom env 0 (elems repos), cmdKey c ≠ k := by
    intro c hc h
    obtain ⟨j, hj, hjk⟩ := cmdKey_cmdsFrom env 0 _ c hc
    apply hk j hj
    rw [← h, hjk]
    simp
  rw [cache_repos_store, pipelineExec_lookup_other env _ _ _ hc,
    pipelineExec_lookup_other env _ _ _ hc]

/-! ## The read path -/

theorem rdbHGetAll_eq (env : Env) (w : World) (key : String) :
    rdbHGetAll env w key =
      if env.fault w.clock then (none, tick w) else (some (hashAt w.store key), tick w) := rfl

theorem elems_goAppend {α : Type} (s : Slice α) (x : α) : elems (goAppend s x) = elems s ++ [x] :=
  rfl

theorem repos_from_cache_loop_fail (env : Env) (k : String) (rest : List String) (w : World)
    (acc : Slice Repo) (hf : env.fault w.clock = true) :
    repos_from_cache_loop env (k :: rest) w acc = (none, tick w) := by
  simp [repos_from_cache_loop, rdbHGetAll_eq, hf]

theorem repos_from_cache_loop_step (env : Env) (k : String) (rest : List String) (w : World)
    (acc : Slice Repo) (hf : env.fault w.clock = false) :
    repos_from_cache_loop env (k :: rest) w acc =
      repos_from_cache_loop env rest (tick w) (goAppend acc (decodeRepo env (hashAt w.store k))) := by
  simp [repos_from_cache_loop, rdbHGetAll_eq, hf, decodeRepo]

theorem repos_from_cache_loop_frame (env : Env) (ks : List String) (w : World)
    (acc : Slice Repo) :
    (repos_from_cache_loop env ks w acc).2.store = w.store ∧
    (repos_from_cache_loop env ks w acc).2.log = w.log ∧
    (repos_from_cache_loop env ks w acc).2.reqs = w.reqs := by
  induction ks generalizing w acc with
  | nil => simp [repos_from_cache_loop]
  | cons k rest ih =>
    cases hf : env.fault w.clock with
    | true => simp [repos_from_cache_loop_fail env k rest w acc hf, tick]
    | false =>
      rw [repos_from_cache_loop_step env k rest w acc hf]
      exact ih (tick w) _

theorem repos_from_cache_loop_cases (env : Env) (ks : List String) (w : World)
    (acc : Slice Repo) :
    ((∃ i, i < ks.length ∧ env.fault (w.clock + i) = true) ∧
        (repos_from_cache_loop env ks w acc).1 = none) ∨
    ((∀ i, i < ks.length → env.fault (w.clock + i) = false) ∧
        (repos_from_cache_loop env ks w acc).1 =
          some (if ks = [] then acc
            else some (elems acc ++ ks.map (fun k => decodeRepo env (hashAt w.store k))))) := by
  induction ks generalizing w acc with
  | nil => right; simp [repos_from_cache_loop]
  | cons k rest ih =>
    cases hf : env.fault w.clock with
    | true =>
      left
      exact ⟨⟨0, by simp, by simpa using hf⟩, by rw [repos_from_cache_loop_fail env k rest w acc hf]⟩
    | false =>
      rw [repos_from_cache_loop_step env k rest w acc hf]
      rcases ih (tick w) (goAppend acc (decodeRepo env (hashAt w.store k)))
        with ⟨⟨i, hi, hfi⟩, hres⟩ | ⟨hall, hres⟩
      · left
        refine ⟨⟨i + 1, by simpa using hi, ?_⟩, hres⟩
        simp only [tick] at hfi
        rw [← hfi]
        congr 1
        omega
      · right
        refine ⟨?_, ?_⟩
        · intro i hi
          cases i with
          | zero => simpa using hf
          | succ i =>
            have := hall i (by simpa using hi)
            simp only [tick] at this
            rw [← this]
            congr 1
            omega
        · rw [hres]
          by_cases hr : rest = []
          · subst hr
            simp [goAppend, tick]
          · simp [hr, elems_goAppend, tick]

theorem rdbKeys_eq (env : Env) (w : World) :
    rdbKeys env w (REPO_REDIS_KEY ++ "*") =
      if env.fault w.clock then (none, tick w)
      else (some (env.keysOrder (repoKeys w.store)), tick w) := rfl

theorem repos_from_cache_frame (env : Env) (w : World) :
    (repos_from_cache env w).2.store = w.store ∧ (repos_from_cache env w).2.log = w.log ∧
    (repos_from_cache env w).2.reqs = w.reqs := by
  unfold repos_from_cache
  rw [rdbKeys_eq]
  cases hf : env.fault w.clock with
  | true => simp [tick]
  | false =>
    simp only [Bool.false_eq_true, if_false]
    by_cases hk : (env.keysOrder (repoKeys w.store)).length = 0
    · simp [hk, tick]
    · simp only [hk, if_false]
      have := repos_from_cache_loop_frame env (env.keysOrder (repoKeys w.store)) (tick w) none
      split <;> rename_i heq <;> simp only [heq] at this <;> exact this

theorem repos_from_cache_cases (env : Env) (w : World) :
    ((env.fault w.clock = true ∨ env.keysOrder (repoKeys w.store) = [] ∨
        ∃ i, i < (env.keysOrder (repoKeys w.store)).length ∧
          env.fault (w.clock + 1 + i) = true) ∧
      (repos_from_cache env w).1 = none) ∨
    ((env.fault w.clock = false ∧ env.keysOrder (repoKeys w.store) ≠ [] ∧
        ∀ i, i < (env.keysOrder (repoKeys w.store)).length →
          env.fault (w.clock + 1 + i) = false) ∧
      (repos_from_cache env w).1 =
        some (env.sortSlice lessAfter
          ((env.keysOrder (repoKeys w.store)).map
            (fun k => decodeRepo env (hashAt w.store k))))) := by
  unfold repos_from_cache
  rw [rdbKeys_eq]
  cases hf : env.fault w.clock with
  | true => left; simp
  | false =>
    simp only [Bool.false_eq_true, if_false]
    by_cases hk : env.keysOrder (repoKeys w.store) = []
    · left; simp [hk]
    · have hlen : ¬ (env.keysOrder (repoKeys w.store)).length = 0 := by
        simpa using hk
      simp only [hlen, if_false]
      rcases repos_from_cache_loop_cases env (env.keysOrder (repoKeys w.store)) (tick w) none
        with ⟨hex, hres⟩ | ⟨hall, hres⟩
      · left
        refine ⟨Or.inr (Or.inr hex), ?_⟩
        split <;> rename_i heq
        · rfl
        · rw [heq] at hres
          simp at hres
      · right
        refine ⟨⟨by simp, hk, hall⟩, ?_⟩
        split <;> rename_i heq
        · rw [heq] at hres
          simp at hres
        · rw [heq] at hres
          simp only [hk, if_false, Option.some.injEq] at hres
          simp [hres, elems, tick]

/-! ## Sorting -/

theorem lessAfter_asymm (a b : Repo) (h : lessAfter a b = true) : lessAfter b a = false := by
  simp only [lessAfter, Time.After, decide_eq_true_eq, decide_eq_false_iff_not] at *
  omega

theorem lessAfter_negtrans (a b c : Repo) (h : lessAfter a c = true) :
    lessAfter a b = true ∨ lessAfter b c = true := by
  simp only [lessAfter, Time.After, decide_eq_true_eq] at *
  omega

theorem sortSlice_perm (env : Env) (hsort : SortsSlices env.sortSlice) (l : List Repo) :
    (env.sortSlice lessAfter l).Perm l :=
  (hsort lessAfter lessAfter_asymm lessAfter_negtrans l).1

theorem sortSlice_descending (env : Env) (hsort : SortsSlices env.sortSlice) (l : List Repo) :
    Descending (env.sortSlice lessAfter l) :=
  (hsort lessAfter lessAfter_asymm lessAfter_negtrans l).2

theorem insertBefore_perm (less : Repo → Repo → Bool) (x : Repo) (l : List Repo) :
    (insertBefore less x l).Perm (x :: l) := by
  induction l with
  | nil => simp [insertBefore]
  | cons y ys ih =>
    by_cases h : less x y = true
    · simp [insertBefore, h]
    · simp only [insertBefore, h, if_false]
      exact (List.Perm.cons y ih).trans (List.Perm.swap x y ys)

theorem insertBefore_sorted (less : Repo → Repo → Bool)
    (hasym : ∀ a b, less a b = true → less b a = false)
    (hneg : ∀ a b c, less a c = true → less a b = true ∨ less b c = true)
    (x : Repo) (l : List Repo) (hl : l.Pairwise (fun a b => less b a = false)) :
    (insertBefore less x l).Pairwise (fun a b => less b a = false) := by
  induction l with
  | nil => simp [insertBefore]
  | cons y ys ih =>
    rw [List.pairwise_cons] at hl
    obtain ⟨hy, hys⟩ := hl
    by_cases h : less x y = true
    · simp only [insertBefore, h, if_true]
      refine List.Pairwise.cons ?_ (List.Pairwise.cons hy hys)
      intro z hz
      rcases List.mem_cons.mp hz with hz | hz
      · subst hz
        exact hasym _ _ h
      · by_contra hc
        have hzx : less z x = true := by simpa using hc
        rcases hneg z y x hzx with h1 | h1
        · rw [hy z hz] at h1
          exact Bool.false_ne_true h1
        · rw [hasym _ _ h] at h1
          exact Bool.false_ne_true h1
    · simp only [insertBefore, h, if_false]
      refine List.Pairwise.cons ?_ (ih hys)
      intro z hz
      rcases List.mem_cons.mp ((insertBefore_perm less x ys).subset hz) with hz | hz
      · subst hz
        simpa using h
      · exact hy z hz

theorem foldl_insertBefore (less : Repo → Repo → Bool)
    (hasym : ∀ a b, less a b = true → less b a = false)
    (hneg : ∀ a b c, less a c = true → less a b = true ∨ less b c = true)
    (l acc : List Repo) (hacc : acc.Pairwise (fun a b => less b a = false)) :
    (l.foldl (fun acc x => insertBefore less x acc) acc).Perm (acc ++ l) ∧
    (l.foldl (fun acc x => insertBefore less x acc) acc).Pairwise (fun a b => less b a = false) := by
  induction l generalizing acc with
  | nil => simpa using hacc
  | cons x xs ih =>
    obtain ⟨h1, h2⟩ := ih (insertBefore less x acc) (insertBefore_sorted less hasym hneg x acc hacc)
    refine ⟨h1.trans ?_, h2⟩
    have hp : (insertBefore less x acc).Perm (acc ++ [x]) :=
      (insertBefore_perm less x acc).trans (List.perm_append_singleton x acc).symm
    simpa using hp.append_right xs

theorem insertionSort_sorts : SortsSlices insertionSort := by
  intro less hasym hneg l
  have := foldl_insertBefore less hasym hneg l [] List.Pairwise.nil
  simpa [insertionSort] using this

theorem descending_pair (a b : Repo) (l : List Repo) (hp : l.Perm [a, b]) (hd : Descending l)
    (hab : b.UpdateDate.After a.UpdateDate = true) : l = [b, a] := by
  have hlen := hp.length_eq
  match l, hlen with
  | [x, y], _ =>
    have hx : x ∈ [a, b] := hp.subset (by simp)
    have hy : y ∈ [a, b] := hp.subset (by simp)
    have hxy : y.UpdateDate.After x.UpdateDate = false := by
      simp only [Descending, List.pairwise_cons] at hd
      exact hd.1 y (by simp)
    have hne : a ≠ b := by
      intro h
      subst h
      simp [Time.After] at hab
    have ha : a ∈ [x, y] := hp.symm.subset (by simp)
    have hb : b ∈ [x, y] := hp.symm.subset (by simp)
    simp only [List.mem_cons, List.mem_singleton, List.not_mem_nil, or_false] at hx hy ha hb
    rcases hx with hx | hx <;> rcases hy with hy | hy
    · exfalso
      rw [hx, hy] at hb
      exact hne (by rcases hb with h | h <;> exact h.symm)
    · rw [hx, hy, hab] at hxy
      exact absurd hxy (by simp)
    · rw [hx, hy]
    · exfalso
      rw [hx, hy] at ha
      exact hne (by rcases ha with h | h <;> exact h)

/-! ## The fetch path -/

theorem get_repositories_loop_panic (env : Env) (elem : Dict) (rest : List Dict) (w : World)
    (acc : Slice Repo) (h : env.httpGet w.reqs.length (mapIndex elem "url") = none) :
    (get_repositories_loop env (elem :: rest) w acc).1 = .panicked ∧
    (get_repositories_loop env (elem :: rest) w acc).2.reqs = w.reqs ++ [mapIndex elem "url"] := by
  simp [get_repositories_loop, fetchBody, h]

theorem get_repositories_loop_step (env : Env) (elem : Dict) (rest : List Dict) (w : World)
    (acc : Slice Repo) (res : Response)
    (h : env.httpGet w.reqs.length (mapIndex elem "url") = some res) :
    ∃ w1, get_repositories_loop env (elem :: rest) w acc =
        get_repositories_loop env rest w1 (goAppend acc (buildRepo env elem res.asObj)) ∧
      w1.reqs = w.reqs ++ [mapIndex elem "url"] ∧ w1.store = w.store ∧ w1.clock = w.clock := by
  cases hp : env.parseRFC3339 (mapIndex res.asObj "pushed_at") with
  | none =>
    refine ⟨World.mk w.store w.clock
        ((if res.readErr = true then
            w.log ++ ["client: could not read response body: %s\n"] else w.log) ++
          ["Could not parse last commit date: %s\n"])
        (w.reqs ++ [mapIndex elem "url"]), ?_, rfl, rfl, rfl⟩
    simp only [get_repositories_loop, fetchBody, h, hp, buildRepo, Option.getD_none]
  | some t =>
    refine ⟨World.mk w.store w.clock
        (if res.readErr = true then
            w.log ++ ["client: could not read response body: %s\n"] else w.log)
        (w.reqs ++ [mapIndex elem "url"]), ?_, rfl, rfl, rfl⟩
    simp only [get_repositories_loop, fetchBody, h, hp, buildRepo, Option.getD_some]

theorem get_repositories_loop_frame (env : Env) (l : List Dict) (w : World) (acc : Slice Repo) :
    (get_repositories_loop env l w acc).2.store = w.store ∧
    (get_repositories_loop env l w acc).2.clock = w.clock := by
  induction l generalizing w acc with
  | nil => simp [get_repositories_loop]
  | cons elem rest ih =>
    cases h : env.httpGet w.reqs.length (mapIndex elem "url") with
    | none => simp [get_repositories_loop, fetchBody, h]
    | some res =>
      obtain ⟨w1, heq, _, hs, hc⟩ := get_repositories_loop_step env elem rest w acc res h
      rw [heq, (ih w1 _).1, (ih w1 _).2, hs, hc]
      exact ⟨rfl, rfl⟩

theorem get_repositories_loop_returns (env : Env) (l : List Dict) (w : World) (acc : Slice Repo)
    (hall : ∀ i (hi : i < l.length),
      (env.httpGet (w.reqs.length + i) (mapIndex (l.get ⟨i, hi⟩) "url")).isSome = true) :
    (get_repositories_loop env l w acc).1 =
      .returned (if l = [] then acc else some (elems acc ++ builtRepos env w.reqs.length l)) := by
  induction l generalizing w acc with
  | nil => simp [get_repositories_loop]
  | cons elem rest ih =>
    have h0 := hall 0 (by simp)
    simp only [List.get_eq_getElem, List.getElem_cons_zero, Nat.add_zero] at h0
    obtain ⟨res, hres⟩ := Option.isSome_iff_exists.mp h0
    obtain ⟨w1, heq, hr, _, _⟩ := get_repositories_loop_step env elem rest w acc res hres
    have hlen : w1.reqs.length = w.reqs.length + 1 := by simp [hr]
    rw [heq, ih w1 _ (by
      intro i hi
      have := hall (i + 1) (by simpa using hi)
      rw [hlen]
      simpa [Nat.add_assoc, Nat.add_comm 1 i] using this)]
    have hd : detailOf env w.reqs.length elem = res.asObj := by simp [detailOf, hres]
    by_cases hrest : rest = []
    · subst hrest
      simp [goAppend, builtRepos, hd]
    · simp [hrest, elems_goAppend, builtRepos, hd, hlen]

theorem get_repositories_loop_indep (env env' : Env) (l : List Dict) (w w' : World)
    (acc : Slice Repo) (hhttp : env'.httpGet = env.httpGet)
    (hparse : env'.parseRFC3339 = env.parseRFC3339) (hreqs : w'.reqs = w.reqs) :
    (get_repositories_loop env' l w' acc).1 = (get_repositories_loop env l w acc).1 ∧
    (get_repositories_loop env' l w' acc).2.reqs = (get_repositories_loop env l w acc).2.reqs := by
  induction l generalizing w w' acc with
  | nil => simp [get_repositories_loop, hreqs]
  | cons elem rest ih =>
    cases h : env.httpGet w.reqs.length (mapIndex elem "url") with
    | none =>
      have h' : env'.httpGet w'.reqs.length (mapIndex elem "url") = none := by
        rw [hhttp, hreqs, h]
      obtain ⟨a1, a2⟩ := get_repositories_loop_panic env elem rest w acc h
      obtain ⟨b1, b2⟩ := get_repositories_loop_panic env' elem rest w' acc h'
      rw [a1, a2, b1, b2, hreqs]
      exact ⟨rfl, rfl⟩
    | some res =>
      have h' : env'.httpGet w'.reqs.length (mapIndex elem "url") = some res := by
        rw [hhttp, hreqs, h]
      obtain ⟨w1, heq, hr, _, _⟩ := get_repositories_loop_step env elem rest w acc res h
      obtain ⟨w1', heq', hr', _, _⟩ := get_repositories_loop_step env' elem rest w' acc res h'
      have hb : buildRepo env' elem res.asObj = buildRepo env elem res.asObj := by
        simp [buildRepo, hparse]
      rw [heq, heq', hb]
      exact ih w1 w1' _ (by rw [hr, hr', hreqs])

theorem get_repositories_hit (env : Env) (w : World) (l : List Repo)
    (h : (repos_from_cache env w).1 = some l) :
    get_repositories env w = (.returned (some l), (repos_from_cache env w).2) := by
  unfold get_repositories
  cases hc : repos_from_cache env w with
  | mk a b =>
    rw [hc] at h
    simp only at h
    subst h
    rfl

theorem get_repositories_miss (env : Env) (w : World)
    (h : (repos_from_cache env w).1 = none) :
    get_repositories env w =
      (match fetchBody env (repos_from_cache env w).2 listUrl with
      | (none, w2) => (.panicked, w2)
      | (some res, w2) =>
        match get_repositories_loop env res.asList w2 none with
        | (.panicked, w3) => (.panicked, w3)
        | (.returned repos, w3) =>
          (.returned (repos.map (env.sortSlice lessAfter)),
            cache_repos env w3 (repos.map (env.sortSlice lessAfter)))) := by
  unfold get_repositories
  cases hc : repos_from_cache env w with
  | mk a b =>
    rw [hc] at h
    simp only at h
    subst h
    rfl

/-! ## Reading after writing -/

theorem decodeRepo_of_holds (env : Env) (e : Entry) (r : Repo) (h : HoldsRepo env e r)
    (hrep : ∃ s, env.marshalTime r.UpdateDate = some s ∧ env.parseRFC3339 s = some r.UpdateDate) :
    decodeRepo env e.hash = r := by
  obtain ⟨h1, h2, h3, h4, _⟩ := h
  obtain ⟨s, hs, hp⟩ := hrep
  have : s = mapIndex e.hash "UpdateDate" := by
    rw [hs] at h4
    exact Option.some.inj h4
  subst this
  simp [decodeRepo, h1, h2, h3, hp]

theorem hashAt_eq_of_lookup (s s' : Store) (k : String)
    (h : List.lookup k s' = List.lookup k s) : hashAt s' k = hashAt s k := by
  simp [hashAt, h]

theorem mem_writtenKeys (n : Nat) (k : String) :
    k ∈ writtenKeys n ↔ ∃ i, i < n ∧ k = REPO_REDIS_KEY ++ Itoa i := by
  simp only [writtenKeys, List.mem_map, List.mem_range]
  constructor
  · rintro ⟨i, hi, rfl⟩
    exact ⟨i, hi, rfl⟩
  · rintro ⟨i, hi, rfl⟩
    exact ⟨i, hi, rfl⟩

theorem nodup_writtenKeys (n : Nat) : (writtenKeys n).Nodup := by
  unfold writtenKeys
  exact (List.nodup_range n).map (fun i j h => repoKey_injective i j h)

theorem nodup_repoKeys (s : Store) : (repoKeys s).Nodup :=
  (List.nodup_dedup _).filter _

theorem mem_repoKeys (s : Store) (k : String) :
    k ∈ repoKeys s ↔ (∃ e, List.lookup k s = some e) ∧
      globMatch (REPO_REDIS_KEY ++ "*").data k.data = true := by
  simp only [repoKeys, List.mem_filter, List.mem_dedup, mem_keys_iff_lookup]

theorem cache_repos_written (env : Env) (w : World) (repos : Slice Repo)
    (hfault : ∀ n, env.fault n = false)
    (hrep : ∀ r ∈ elems repos, ∃ s, env.marshalTime r.UpdateDate = some s ∧
      env.parseRFC3339 s = some r.UpdateDate)
    (i : Nat) (hi : i < (elems repos).length) :
    (∃ e, List.lookup (REPO_REDIS_KEY ++ Itoa i) (cache_repos env w repos).store = some e) ∧
    decodeRepo env (hashAt (cache_repos env w repos).store (REPO_REDIS_KEY ++ Itoa i)) =
      (elems repos).get ⟨i, hi⟩ := by
  have hfmt : ∀ r ∈ elems repos, (env.marshalTime r.UpdateDate).isSome = true := by
    intro r hr
    obtain ⟨s, hs, _⟩ := hrep r hr
    simp [hs]
  have hok := pipelineExec_ok env 0 (elems repos)
    (pipelineExec env (cmdsFrom env 0 (elems repos)) w).2 hfault hfmt
  obtain ⟨e, he, hh⟩ := pipelineExec_holds env 0 (elems repos) _ hok i hi
  rw [Nat.zero_add] at he
  rw [cache_repos_store]
  refine ⟨⟨e, he⟩, ?_⟩
  have : hashAt (pipelineExec env (cmdsFrom env 0 (elems repos))
      (pipelineExec env (cmdsFrom env 0 (elems repos)) w).2).2.store
      (REPO_REDIS_KEY ++ Itoa i) = e.hash := by
    simp [hashAt, he]
  rw [this]
  exact decodeRepo_of_holds env e _ hh (hrep _ (List.get_mem _ _ _))

theorem repoKeys_after_write (env : Env) (w : World) (repos : Slice Repo)
    (hfault : ∀ n, env.fault n = false)
    (hrep : ∀ r ∈ elems repos, ∃ s, env.marshalTime r.UpdateDate = some s ∧
      env.parseRFC3339 s = some r.UpdateDate) :
    (repoKeys (cache_repos env w repos).store).Perm
      (writtenKeys (elems repos).length ++ staleKeys w.store (elems repos).length) := by
  have hnd : (writtenKeys (elems repos).length ++
      staleKeys w.store (elems repos).length).Nodup := by
    refine List.Nodup.append (nodup_writtenKeys _) ((nodup_repoKeys _).filter _) ?_
    intro k hk1 hk2
    simp only [staleKeys, List.mem_filter, decide_eq_true_eq] at hk2
    exact hk2.2 hk1
  rw [List.perm_ext_iff_of_nodup (nodup_repoKeys _) hnd]
  intro k
  simp only [List.mem_append, staleKeys, List.mem_filter, decide_eq_true_eq]
  by_cases hk : k ∈ writtenKeys (elems repos).length
  · obtain ⟨i, hi, rfl⟩ := (mem_writtenKeys _ _).mp hk
    simp only [hk, true_or, iff_true]
    rw [mem_repoKeys]
    exact ⟨(cache_repos_written env w repos hfault hrep i hi).1, globMatch_repoKey i⟩
  · have hl : List.lookup k (cache_repos env w repos).store = List.lookup k w.store :=
      cache_repos_lookup_other env w repos k
        (fun i hi h => hk ((mem_writtenKeys _ _).mpr ⟨i, hi, h⟩))
    simp only [hk, false_or, not_false_eq_true, and_true]
    rw [mem_repoKeys, mem_repoKeys, hl]

theorem written_decode (env : Env) (w : World) (repos : Slice Repo)
    (hfault : ∀ n, env.fault n = false)
    (hrep : ∀ r ∈ elems repos, ∃ s, env.marshalTime r.UpdateDate = some s ∧
      env.parseRFC3339 s = some r.UpdateDate) :
    (writtenKeys (elems repos).length).map
      (fun k => decodeRepo env (hashAt (cache_repos env w repos).store k)) = elems repos := by
  apply List.ext_getElem
  · simp [writtenKeys]
  · intro i h1 h2
    simp only [writtenKeys, List.map_map, List.getElem_map, List.getElem_range, Function.comp]
    exact (cache_repos_written env w repos hfault hrep i h2).2

theorem stale_decode (env : Env) (w : World) (repos : Slice Repo) :
    (staleKeys w.store (elems repos).length).map
      (fun k => decodeRepo env (hashAt (cache_repos env w repos).store k)) =
    (staleKeys w.store (elems repos).length).map
      (fun k => decodeRepo env (hashAt w.store k)) := by
  apply List.map_congr_left
  intro k hk
  simp only [staleKeys, List.mem_filter, decide_eq_true_eq] at hk
  rw [hashAt_eq_of_lookup _ _ _ (cache_repos_lookup_other env w repos k
    (fun i hi h => hk.2 ((mem_writtenKeys _ _).mpr ⟨i, hi, h⟩)))]

theorem read_after_write (env : Env) (w : World) (repos : Slice Repo)
    (hfault : ∀ n, env.fault n = false)
    (hrep : ∀ r ∈ elems repos, ∃ s, env.marshalTime r.UpdateDate = some s ∧
      env.parseRFC3339 s = some r.UpdateDate)
    (hperm : ∀ l, (env.keysOrder l).Perm l) (hsort : SortsSlices env.sortSlice) :
    (elems repos = [] → staleKeys w.store (elems repos).length = [] →
      (repos_from_cache env (cache_repos env w repos)).1 = none) ∧
    ((elems repos ≠ [] ∨ staleKeys w.store (elems repos).length ≠ []) →
      ∃ l, (repos_from_cache env (cache_repos env w repos)).1 = some l ∧
        l.Perm (elems repos ++
          (staleKeys w.store (elems repos).length).map
            (fun k => decodeRepo env (hashAt w.store k)))) := by
  have hkeys : (env.keysOrder (repoKeys (cache_repos env w repos).store)).Perm
      (writtenKeys (elems repos).length ++ staleKeys w.store (elems repos).length) :=
    (hperm _).trans (repoKeys_after_write env w repos hfault hrep)
  constructor
  · intro h1 h2
    rw [h1] at hkeys
    rw [h1] at h2
    rw [h2] at hkeys
    have hnil : env.keysOrder (repoKeys (cache_repos env w repos).store) = [] := by
      simpa [writtenKeys] using hkeys
    rcases repos_from_cache_cases env (cache_repos env w repos) with ⟨_, hres⟩ | ⟨⟨_, hne, _⟩, _⟩
    · exact hres
    · exact absurd hnil hne
  · intro hne
    rcases repos_from_cache_cases env (cache_repos env w repos) with
      ⟨hbad, _⟩ | ⟨_, hres⟩
    · exfalso
      rcases hbad with h | h | ⟨i, _, h⟩
      · rw [hfault] at h
        exact Bool.false_ne_true h
      · rw [h] at hkeys
        have hnil := hkeys.symm.eq_nil
        simp only [List.append_eq_nil] at hnil
        rcases hne with h1 | h1
        · apply h1
          have : (writtenKeys (elems repos).length).length = 0 := by simp [hnil.1]
          simpa [writtenKeys] using this
        · exact h1 hnil.2
      · rw [hfault] at h
        exact Bool.false_ne_true h
    · refine ⟨_, hres, (sortSlice_perm env hsort _).trans ?_⟩
      refine (hkeys.map _).trans ?_
      rw [List.map_append, written_decode env w repos hfault hrep, stale_decode]

/-! ## The claims -/

theorem no_repo_keys (s : Store)
    (h : ∀ k ∈ s.map Prod.fst, REPO_REDIS_KEY.data.isPrefixOf k.data = false) :
    repoKeys s = [] := by
  unfold repoKeys
  rw [List.filter_eq_nil_iff]
  intro k hk
  rw [globMatch_repo, h k (List.mem_dedup.mp hk)]
  simp

/-- C1: cache round trip.  When every store command succeeds, the `UpdateDate` of every
record can be written in RFC 3339 and read back, and the store holds no key under the prefix
`REPO:`, then `repos_from_cache` after `cache_repos` yields a rearrangement of the written
records, as many as were written, and for no record it reports nil. -/
theorem cache_round_trip (env : Env) (w : World) (repos : Slice Repo)
    (hfault : ∀ n, env.fault n = false)
    (hrep : ∀ r ∈ elems repos, ∃ s, env.marshalTime r.UpdateDate = some s ∧
      env.parseRFC3339 s = some r.UpdateDate)
    (hnone : ∀ k ∈ w.store.map Prod.fst, REPO_REDIS_KEY.data.isPrefixOf k.data = false)
    (hperm : ∀ l, (env.keysOrder l).Perm l) (hsort : SortsSlices env.sortSlice) :
    (elems (repos_from_cache env (cache_repos env w repos)).1).Perm (elems repos) ∧
    (elems (repos_from_cache env (cache_repos env w repos)).1).length = (elems repos).length ∧
    ((elems repos).length = 0 → (repos_from_cache env (cache_repos env w repos)).1 = none) := by
  have hstale : staleKeys w.store (elems repos).length = [] := by
    simp [staleKeys, no_repo_keys w.store hnone]
  obtain ⟨h0, h1⟩ := read_after_write env w repos hfault hrep hperm hsort
  rw [hstale] at h1
  by_cases hN : elems repos = []
  · have := h0 hN hstale
    rw [this, hN]
    simp [elems]
  · obtain ⟨l, hl, hp⟩ := h1 (Or.inl hN)
    have hp' : l.Perm (elems repos) := by simpa using hp
    rw [hl]
    refine ⟨hp', hp'.length_eq, ?_⟩
    intro h
    exact absurd (List.length_eq_zero.mp h) hN

/-- Witness of C1: two records written to an empty store and read back. -/
theorem cache_round_trip_witness :
    (elems (repos_from_cache (sampleEnv noHttp)
      (cache_repos (sampleEnv noHttp) emptyWorld (some [repoA, repoB]))).1).Perm [repoA, repoB] ∧
    (elems (repos_from_cache (sampleEnv noHttp)
      (cache_repos (sampleEnv noHttp) emptyWorld (some [repoA, repoB]))).1).length = 2 :=
  have h := cache_round_trip (sampleEnv noHttp) emptyWorld (some [repoA, repoB])
    (fun _ => rfl)
    (by
      intro r hr
      simp only [elems, Option.getD_some, List.mem_cons, List.mem_singleton,
        List.not_mem_nil, or_false] at hr
      rcases hr with hr | hr
      · subst hr
        exact ⟨"2023-01-01T00:00:00Z", by decide, by decide⟩
      · subst hr
        exact ⟨"2023-06-01T00:00:00Z", by decide, by decide⟩)
    (by simp [emptyWorld])
    (fun l => List.Perm.refl l)
    insertionSort_sorts
  ⟨h.1, h.2.1⟩

/-- C3: miss reporting.  With `ks` the keys the enumeration under `REPO:*` lists,
`repos_from_cache` returns nil exactly when the enumeration fails (the command at
`w.clock`), or lists no key, or the hash read of one of the keys fails (the read of the
key at position `i` is the command at `w.clock + 1 + i`); otherwise it returns a non-nil
sequence with one record per listed key.  With no key under the prefix it returns nil, and
it never returns a non-nil empty sequence. -/
theorem miss_reporting (env : Env) (w : World) (hperm : ∀ l, (env.keysOrder l).Perm l)
    (hsort : SortsSlices env.sortSlice) :
    ((repos_from_cache env w).1 = none ↔
      (env.fault w.clock = true ∨ env.keysOrder (repoKeys w.store) = [] ∨
        ∃ i, i < (env.keysOrder (repoKeys w.store)).length ∧
          env.fault (w.clock + 1 + i) = true)) ∧
    (¬ (env.fault w.clock = true ∨ env.keysOrder (repoKeys w.store) = [] ∨
        ∃ i, i < (env.keysOrder (repoKeys w.store)).length ∧
          env.fault (w.clock + 1 + i) = true) →
      ∃ l, (repos_from_cache env w).1 = some l ∧
        l.length = (env.keysOrder (repoKeys w.store)).length ∧
        l.Perm ((env.keysOrder (repoKeys w.store)).map
          (fun k => decodeRepo env (hashAt w.store k)))) ∧
    (repoKeys w.store = [] → (repos_from_cache env w).1 = none) ∧
    (repos_from_cache env w).1 ≠ some [] := by
  rcases repos_from_cache_cases env w with ⟨hbad, hres⟩ | ⟨⟨hf, hne, hall⟩, hres⟩
  · refine ⟨⟨fun _ => hbad, fun _ => hres⟩, fun h => absurd hbad h, fun _ => hres, ?_⟩
    rw [hres]
    simp
  · have hgood : ¬ (env.fault w.clock = true ∨ env.keysOrder (repoKeys w.store) = [] ∨
        ∃ i, i < (env.keysOrder (repoKeys w.store)).length ∧
          env.fault (w.clock + 1 + i) = true) := by
      rintro (h | h | ⟨i, hi, h⟩)
      · rw [hf] at h
        exact Bool.false_ne_true h
      · exact hne h
      · rw [hall i hi] at h
        exact Bool.false_ne_true h
    have hp := sortSlice_perm env hsort ((env.keysOrder (repoKeys w.store)).map
      (fun k => decodeRepo env (hashAt w.store k)))
    refine ⟨⟨fun h => ?_, fun h => absurd h hgood⟩, fun _ => ⟨_, hres, ?_, hp⟩, ?_, ?_⟩
    · rw [hres] at h
      exact absurd h (by simp)
    · simpa using hp.length_eq
    · intro h
      exfalso
      apply hne
      have hlen : (repoKeys w.store).length = 0 := by rw [h, List.length_nil]
      exact List.length_eq_zero.mp ((hperm (repoKeys w.store)).length_eq.trans hlen)
    · rw [hres]
      intro h
      have h' := Option.some.inj h
      rw [h'] at hp
      have := hp.symm.eq_nil
      exact hne (by simpa using this)

/-- Witness of C3: a store with one key under the prefix, every command succeeding. -/
theorem miss_reporting_witness :
    ∃ l, (repos_from_cache (sampleEnv noHttp)
        (worldOf [("REPO:0", entryOf "x" "u" "d" "2023-06-01T00:00:00Z")])).1 = some l ∧
      l.length = 1 :=
  have h := (miss_reporting (sampleEnv noHttp)
    (worldOf [("REPO:0", entryOf "x" "u" "d" "2023-06-01T00:00:00Z")])
    (fun l => List.Perm.refl l) insertionSort_sorts).2.1 (by decide)
  h.imp (fun _ hl => ⟨hl.1, hl.2.1⟩)

/-- C4: cache hit.  When `repos_from_cache` returns a non-nil sequence, `get_repositories`
returns that sequence, requests nothing from the repository API and leaves the store as it
was. -/
theorem cache_hit (env : Env) (w : World) (l : List Repo)
    (h : (repos_from_cache env w).1 = some l) :
    (get_repositories env w).1 = .returned (some l) ∧
    (get_repositories env w).2.reqs = w.reqs ∧
    (get_repositories env w).2.store = w.store := by
  rw [get_repositories_hit env w l h]
  exact ⟨rfl, (repos_from_cache_frame env w).2.2, (repos_from_cache_frame env w).1⟩

/-- Witness of C4: a store with one cached record. -/
theorem cache_hit_witness :
    (get_repositories (sampleEnv noHttp)
      (worldOf [("REPO:0", entryOf "x" "u" "d" "2023-06-01T00:00:00Z")])).1 =
      .returned (some [⟨"x", "u", "d", ⟨63821174400 * 1000000000⟩⟩]) ∧
    (get_repositories (sampleEnv noHttp)
      (worldOf [("REPO:0", entryOf "x" "u" "d" "2023-06-01T00:00:00Z")])).2.reqs = [] ∧
    (get_repositories (sampleEnv noHttp)
      (worldOf [("REPO:0", entryOf "x" "u" "d" "2023-06-01T00:00:00Z")])).2.store =
      [("REPO:0", entryOf "x" "u" "d" "2023-06-01T00:00:00Z")] :=
  cache_hit (sampleEnv noHttp) (worldOf [("REPO:0", entryOf "x" "u" "d" "2023-06-01T00:00:00Z")])
    [⟨"x", "u", "d", ⟨63821174400 * 1000000000⟩⟩] (by decide)

theorem log_ne_append (l : List String) (x : String) : l ++ [x] ≠ l := by
  intro h
  have := congrArg List.length h
  simp at this

/-- C5: write path.  When `cache_repos` ends without an error of the batch (no line is
printed), the key `REPO:` followed by the decimal index `i` of each record holds a hash
whose fields `Name`, `Url`, `Description` are those of the record and whose `UpdateDate`
is its marshalled time, and the key expires after 24 hours (`HoldsRepo`); the key is among
those the pattern `REPO:*` of the read path lists, and keys of different indices differ. -/
theorem write_path (env : Env) (w : World) (repos : Slice Repo)
    (hok : (cache_repos env w repos).log = w.log) (i : Nat) (hi : i < (elems repos).length) :
    (∃ e, List.lookup (REPO_REDIS_KEY ++ Itoa i) (cache_repos env w repos).store = some e ∧
      HoldsRepo env e ((elems repos).get ⟨i, hi⟩)) ∧
    REPO_REDIS_KEY ++ Itoa i ∈ repoKeys (cache_repos env w repos).store ∧
    (∀ j, j ≠ i → REPO_REDIS_KEY ++ Itoa j ≠ REPO_REDIS_KEY ++ Itoa i) := by
  have hx : (pipelineExec env (cmdsFrom env 0 (elems repos))
      (pipelineExec env (cmdsFrom env 0 (elems repos)) w).2).1 = false := by
    have hlog := cache_repos_log env w repos
    rw [hok] at hlog
    cases hb : (pipelineExec env (cmdsFrom env 0 (elems repos))
      (pipelineExec env (cmdsFrom env 0 (elems repos)) w).2).1 with
    | false => rfl
    | true =>
      rw [hb] at hlog
      simp only [if_true] at hlog
      exact absurd hlog.symm (log_ne_append _ _)
  obtain ⟨e, he, hh⟩ := pipelineExec_holds env 0 (elems repos) _ hx i hi
  rw [Nat.zero_add] at he
  rw [← cache_repos_store] at he
  refine ⟨⟨e, he, hh⟩, ?_, ?_⟩
  · rw [mem_repoKeys]
    exact ⟨⟨e, he⟩, globMatch_repoKey i⟩
  · intro j hj h
    exact hj (repoKey_injective j i h)

/-- Witness of C5: two records written to an empty store; the second one is under
`REPO:1`. -/
theorem write_path_witness :
    (∃ e, List.lookup (REPO_REDIS_KEY ++ Itoa 1)
        (cache_repos (sampleEnv noHttp) emptyWorld (some [repoA, repoB])).store = some e ∧
      HoldsRepo (sampleEnv noHttp) e repoB) ∧
    REPO_REDIS_KEY ++ Itoa 1 ∈
      repoKeys (cache_repos (sampleEnv noHttp) emptyWorld (some [repoA, repoB])).store ∧
    (∀ j, j ≠ 1 → REPO_REDIS_KEY ++ Itoa j ≠ REPO_REDIS_KEY ++ Itoa 1) :=
  write_path (sampleEnv noHttp) emptyWorld (some [repoA, repoB]) (by decide) 1 (by decide)

/-- C10, as amended: `cache_repos` deletes no key.  Every key other than the keys `REPO:0`
.. `REPO:N-1` it writes has the same entry (fields and time to live) after the call as
before, whatever the outcome of the commands.  When, in addition, every store command
succeeds and the `UpdateDate` of every record can be written in RFC 3339 and read back, and
the store held stale keys under `REPO:*`, the next `repos_from_cache` returns the `N` written
records and one record per stale key, more than `N` in all. -/
theorem never_deletes (env : Env) (w : World) (repos : Slice Repo) :
    (∀ k, (∀ i, i < (elems repos).length → k ≠ REPO_REDIS_KEY ++ Itoa i) →
      List.lookup k (cache_repos env w repos).store = List.lookup k w.store) ∧
    ((∀ n, env.fault n = false) →
      (∀ r ∈ elems repos, ∃ s, env.marshalTime r.UpdateDate = some s ∧
        env.parseRFC3339 s = some r.UpdateDate) →
      (∀ l, (env.keysOrder l).Perm l) → SortsSlices env.sortSlice →
      staleKeys w.store (elems repos).length ≠ [] →
      ∃ l, (repos_from_cache env (cache_repos env w repos)).1 = some l ∧
        l.Perm (elems repos ++ (staleKeys w.store (elems repos).length).map
          (fun k => decodeRepo env (hashAt w.store k))) ∧
        l.length = (elems repos).length + (staleKeys w.store (elems repos).length).length ∧
        (elems repos).length < l.length) := by
  refine ⟨fun k hk => cache_repos_lookup_other env w repos k hk, ?_⟩
  intro hfault hrep hperm hsort hstale
  obtain ⟨l, hl, hp⟩ := (read_after_write env w repos hfault hrep hperm hsort).2 (Or.inr hstale)
  have hlen : l.length =
      (elems repos).length + (staleKeys w.store (elems repos).length).length := by
    simpa using hp.length_eq
  refine ⟨l, hl, hp, hlen, ?_⟩
  have : 0 < (staleKeys w.store (elems repos).length).length :=
    List.length_pos.mpr hstale
  omega

/-- Witness of C10: `REPO:2` is in the store and two records are written. -/
theorem never_deletes_witness :
    ∃ l, (repos_from_cache (sampleEnv noHttp) (cache_repos (sampleEnv noHttp)
        (worldOf [("REPO:2", entryOf "old" "u" "d" "2022-01-01T00:00:00Z")])
        (some [repoB, repoA]))).1 = some l ∧ 2 < l.length :=
  have h := (never_deletes (sampleEnv noHttp)
    (worldOf [("REPO:2", entryOf "old" "u" "d" "2022-01-01T00:00:00Z")])
    (some [repoB, repoA])).2 (fun _ => rfl)
    (by
      intro r hr
      simp only [elems, Option.getD_some, List.mem_cons, List.mem_singleton,
        List.not_mem_nil, or_false] at hr
      rcases hr with hr | hr
      · subst hr
        exact ⟨"2023-06-01T00:00:00Z", by decide, by decide⟩
      · subst hr
        exact ⟨"2023-01-01T00:00:00Z", by decide, by decide⟩)
    (fun l => List.Perm.refl l) insertionSort_sorts (by decide)
  h.imp (fun _ hl => ⟨hl.1, hl.2.2.2⟩)

/-- C10, counterexample to the claim as stated: with `REPO:2` in the store and two records
to write, the following read does not return more than two records when the writes fail
(all eight write commands failing, it returns the stale record alone) nor when a record
cannot be marshalled (the first record lying in year 10000, it returns the second record
and the stale one). -/
theorem never_deletes_counterexample :
    staleKeys staleStore 2 = ["REPO:2"] ∧
    (repos_from_cache (failingFirst 8 noHttp)
      (cache_repos (failingFirst 8 noHttp) (worldOf staleStore) (some [repoB, repoA]))).1 =
      some [⟨"old", "u", "d", ⟨63776592000 * 1000000000⟩⟩] ∧
    (repos_from_cache (sampleEnv noHttp)
      (cache_repos (sampleEnv noHttp) (worldOf staleStore) (some [farRepo, repoA]))).1 =
      some [repoA, ⟨"old", "u", "d", ⟨63776592000 * 1000000000⟩⟩] := by
  decide

theorem length_builtRepos (env : Env) (n : Nat) (l : List Dict) :
    (builtRepos env n l).length = l.length := by
  induction l generalizing n with
  | nil => rfl
  | cons elem rest ih => simp [builtRepos, ih]

theorem fetchBody_some (env : Env) (w : World) (url : String) (res : Response)
    (h : env.httpGet w.reqs.length url = some res) :
    ∃ w1, fetchBody env w url = (some res, w1) ∧ w1.reqs = w.reqs ++ [url] := by
  unfold fetchBody
  rw [h]
  exact ⟨_, rfl, rfl⟩

theorem fetchBody_none (env : Env) (w : World) (url : String)
    (h : env.httpGet w.reqs.length url = none) :
    ∃ w1, fetchBody env w url = (none, w1) ∧ w1.reqs = w.reqs ++ [url] := by
  unfold fetchBody
  rw [h]
  exact ⟨_, rfl, rfl⟩

theorem example_run (sort : (Repo → Repo → Bool) → List Repo → List Repo) :
    get_repositories (exampleEnv sort) emptyWorld =
      (.returned (some (sort lessAfter [repoA, repoB])),
        cache_repos (exampleEnv sort)
          ⟨[], 1, [], [listUrl, "https://api.github.com/repos/gr4b4rz/a",
            "https://api.github.com/repos/gr4b4rz/b"]⟩
          (some (sort lessAfter [repoA, repoB]))) := rfl

theorem example_sorted (sort : (Repo → Repo → Bool) → List Repo → List Repo)
    (hsort : SortsSlices sort) : sort lessAfter [repoA, repoB] = [repoB, repoA] := by
  obtain ⟨hp, hd⟩ := hsort lessAfter lessAfter_asymm lessAfter_negtrans [repoA, repoB]
  exact descending_pair repoA repoB _ hp hd (by decide)

theorem execCmd_congr (env env' : Env) (hf : env'.fault = env.fault) (w : World) (c : Cmd) :
    execCmd env' w c = execCmd env w c := by
  cases c <;> simp [execCmd, hf]

theorem pipelineExec_congr (env env' : Env) (hf : env'.fault = env.fault) (cmds : List Cmd)
    (w : World) : pipelineExec env' cmds w = pipelineExec env cmds w := by
  induction cmds generalizing w with
  | nil => rfl
  | cons c cs ih => simp [pipelineExec, execCmd_congr env env' hf, ih]

theorem cmdsFrom_congr (env env' : Env) (hm : env'.marshalTime = env.marshalTime) (idx : Nat)
    (rs : List Repo) : cmdsFrom env' idx rs = cmdsFrom env idx rs := by
  induction rs generalizing idx with
  | nil => rfl
  | cons r rest ih => simp [cmdsFrom, kvMap, hm, ih]

theorem cache_repos_congr (env env' : Env) (hf : env'.fault = env.fault)
    (hm : env'.marshalTime = env.marshalTime) (w : World) (repos : Slice Repo) :
    cache_repos env' w repos = cache_repos env w repos := by
  rw [cache_repos_eq, cache_repos_eq, cmdsFrom_congr env env' hm]
  simp only [pipelineExec_congr env env' hf]

theorem example_cached (sort : (Repo → Repo → Bool) → List Repo → List Repo)
    (hsort : SortsSlices sort) :
    (get_repositories (exampleEnv sort) emptyWorld).1 = .returned (some [repoB, repoA]) ∧
    decodeRepo (exampleEnv sort)
      (hashAt (get_repositories (exampleEnv sort) emptyWorld).2.store "REPO:0") = repoB ∧
    decodeRepo (exampleEnv sort)
      (hashAt (get_repositories (exampleEnv sort) emptyWorld).2.store "REPO:1") = repoA := by
  rw [example_run, example_sorted sort hsort,
    cache_repos_congr (sampleEnv exampleHttp) (exampleEnv sort) rfl rfl]
  refine ⟨rfl, ?_, ?_⟩
  · show decodeRepo (sampleEnv exampleHttp) _ = repoB
    decide
  · show decodeRepo (sampleEnv exampleHttp) _ = repoA
    decide

/-- C2: descending order.  On a cache miss, when the list request and every detail request
get a response, `get_repositories` returns a rearrangement of the records built from the
summaries, one per summary, in which no record has an `UpdateDate` after that of an earlier
record; the same ordering holds for every non-nil result of `repos_from_cache`.  For the
list `a` pushed 2023-01-01T00:00:00Z, `b` pushed 2023-06-01T00:00:00Z it returns `b`, `a`,
and the store then holds `b` under `REPO:0` and `a` under `REPO:1`. -/
theorem descending_order (env : Env) (w : World) (hsort : SortsSlices env.sortSlice) :
    ((repos_from_cache env w).1 = none →
      ∀ res, env.httpGet w.reqs.length listUrl = some res →
        (∀ i (hi : i < res.asList.length),
          (env.httpGet (w.reqs.length + 1 + i)
            (mapIndex (res.asList.get ⟨i, hi⟩) "url")).isSome = true) →
        ∃ s, (get_repositories env w).1 = .returned s ∧
          (elems s).Perm (builtRepos env (w.reqs.length + 1) res.asList) ∧
          (elems s).length = res.asList.length ∧ Descending (elems s)) ∧
    (∀ l, (repos_from_cache env w).1 = some l → Descending l) ∧
    ((get_repositories (exampleEnv env.sortSlice) emptyWorld).1 =
        .returned (some [repoB, repoA]) ∧
      decodeRepo (exampleEnv env.sortSlice)
        (hashAt (get_repositories (exampleEnv env.sortSlice) emptyWorld).2.store "REPO:0") =
          repoB ∧
      decodeRepo (exampleEnv env.sortSlice)
        (hashAt (get_repositories (exampleEnv env.sortSlice) emptyWorld).2.store "REPO:1") =
          repoA) := by
  refine ⟨?_, ?_, ?_⟩
  · intro hmiss res hres hall
    rw [get_repositories_miss env w hmiss]
    have hreqs := (repos_from_cache_frame env w).2.2
    obtain ⟨w2, hfb, hw2⟩ := fetchBody_some env (repos_from_cache env w).2 listUrl res
      (by rw [hreqs]; exact hres)
    have hlen : w2.reqs.length = w.reqs.length + 1 := by simp [hw2, hreqs]
    have hloop := get_repositories_loop_returns env res.asList w2 none
      (by intro i hi; rw [hlen]; exact hall i hi)
    rw [hfb]
    simp only
    cases hl : get_repositories_loop env res.asList w2 none with
    | mk o w3 =>
      rw [hl] at hloop
      simp only at hloop
      subst hloop
      simp only
      refine ⟨_, rfl, ?_⟩
      by_cases hnil : res.asList = []
      · simp [hnil, elems, builtRepos, Descending]
      · have hp := sortSlice_perm env hsort (builtRepos env w2.reqs.length res.asList)
        simp only [hnil, if_false, Option.map_some', elems, Option.getD_some,
          Option.getD_none, List.nil_append]
        rw [hlen] at hp ⊢
        exact ⟨hp, by rw [hp.length_eq, length_builtRepos], sortSlice_descending env hsort _⟩
  · intro l hl
    rcases repos_from_cache_cases env w with ⟨_, hres⟩ | ⟨_, hres⟩
    · rw [hres] at hl
      exact absurd hl (by simp)
    · rw [hres] at hl
      rw [← Option.some.inj hl]
      exact sortSlice_descending env hsort _
  · exact example_cached env.sortSlice hsort

/-- Witness of C2: the run of the end-to-end example with insertion sort. -/
theorem descending_order_witness :
    ∃ s, (get_repositories (sampleEnv exampleHttp) emptyWorld).1 = .returned s ∧
      (elems s).Perm (builtRepos (sampleEnv exampleHttp) 1 [summary "a", summary "b"]) ∧
      (elems s).length = 2 ∧ Descending (elems s) :=
  (descending_order (sampleEnv exampleHttp) emptyWorld insertionSort_sorts).1 (by decide)
    ⟨false, [summary "a", summary "b"], []⟩ rfl (by decide)

/-- C6: a write failure is not fatal.  Two cache-miss runs of `get_repositories` with the
same responses, the same `time.Parse` and the same `sort.Slice`, started after the same
requests, have the same outcome and issue the same requests, whatever the store holds and
whichever store commands fail in either run. -/
theorem write_failure_not_fatal (env env' : Env) (w w' : World)
    (hhttp : env'.httpGet = env.httpGet) (hparse : env'.parseRFC3339 = env.parseRFC3339)
    (hsort : env'.sortSlice = env.sortSlice) (hreqs : w'.reqs = w.reqs)
    (hmiss : (repos_from_cache env w).1 = none)
    (hmiss' : (repos_from_cache env' w').1 = none) :
    (get_repositories env' w').1 = (get_repositories env w).1 ∧
    (get_repositories env' w').2.reqs = (get_repositories env w).2.reqs := by
  rw [get_repositories_miss env w hmiss, get_repositories_miss env' w' hmiss']
  have hr := (repos_from_cache_frame env w).2.2
  have hr' := (repos_from_cache_frame env' w').2.2
  have hlen : (repos_from_cache env' w').2.reqs.length = (repos_from_cache env w).2.reqs.length := by
    rw [hr, hr', hreqs]
  cases hg : env.httpGet (repos_from_cache env w).2.reqs.length listUrl with
  | none =>
    have hg' : env'.httpGet (repos_from_cache env' w').2.reqs.length listUrl = none := by
      rw [hhttp, hlen, hg]
    obtain ⟨w2, hfb, hw2⟩ := fetchBody_none env _ listUrl hg
    obtain ⟨w2', hfb', hw2'⟩ := fetchBody_none env' _ listUrl hg'
    rw [hfb, hfb']
    exact ⟨rfl, by rw [hw2, hw2', hr, hr', hreqs]⟩
  | some res =>
    have hg' : env'.httpGet (repos_from_cache env' w').2.reqs.length listUrl = some res := by
      rw [hhttp, hlen, hg]
    obtain ⟨w2, hfb, hw2⟩ := fetchBody_some env _ listUrl res hg
    obtain ⟨w2', hfb', hw2'⟩ := fetchBody_some env' _ listUrl res hg'
    rw [hfb, hfb']
    simp only
    obtain ⟨h1, h2⟩ := get_repositories_loop_indep env env' res.asList w2 w2' none hhttp hparse
      (by rw [hw2, hw2', hr, hr', hreqs])
    cases hl : get_repositories_loop env res.asList w2 none with
    | mk o w3 =>
      cases hl' : get_repositories_loop env' res.asList w2' none with
      | mk o' w3' =>
        rw [hl, hl'] at h1 h2
        simp only at h1 h2
        subst h1
        cases o' with
        | panicked => exact ⟨rfl, h2⟩
        | returned repos =>
          simp only [hsort, cache_repos_reqs]
          exact ⟨trivial, h2⟩

/-- Witness of C6: the run of the example with every write failing against the run with
every write succeeding. -/
theorem write_failure_not_fatal_witness :
    (get_repositories (failingWrites exampleHttp) emptyWorld).1 =
      (get_repositories (sampleEnv exampleHttp) emptyWorld).1 ∧
    (get_repositories (failingWrites exampleHttp) emptyWorld).2.reqs =
      (get_repositories (sampleEnv exampleHttp) emptyWorld).2.reqs :=
  write_failure_not_fatal (sampleEnv exampleHttp) (failingWrites exampleHttp) emptyWorld
    emptyWorld rfl rfl rfl rfl (by decide) (by decide)

/-- C7, evaluation at the failing input: with three summaries and a detail of the second
whose body cannot be read, the result holds a record for the second with the empty
description and the zero time; with a failed request for that detail the call panics and
returns nothing for the first and the third either. -/
theorem detail_failure_run :
    (get_repositories (sampleEnv brokenDetailHttp) emptyWorld).1 =
      .returned (some
        [⟨"three", "https://github.com/gr4b4rz/three", "third", ⟨63821174400 * 1000000000⟩⟩,
          ⟨"one", "https://github.com/gr4b4rz/one", "first", ⟨63808128000 * 1000000000⟩⟩,
          ⟨"two", "https://github.com/gr4b4rz/two", "", Time.zero⟩]) ∧
    (get_repositories (sampleEnv failedDetailHttp) emptyWorld).1 = .panicked := by
  decide

/-- C8, evaluation at the failing input: a push date that is not RFC 3339 gives a returned
record with the zero time, which is not the epoch, on the fetch path, and a stored
`UpdateDate` that is not RFC 3339 gives the same on the cache read path, where nothing is
printed either. -/
theorem bad_timestamp_run :
    (get_repositories (sampleEnv badDateHttp) emptyWorld).1 =
      .returned (some [⟨"one", "https://github.com/gr4b4rz/one", "first", Time.zero⟩]) ∧
    repos_from_cache (sampleEnv noHttp)
        (worldOf [("REPO:0", entryOf "one" "u" "first" "01/06/2023")]) =
      (some [⟨"one", "u", "first", Time.zero⟩],
        ⟨[("REPO:0", entryOf "one" "u" "first" "01/06/2023")], 2, [], []⟩) ∧
    Time.zero ≠ Time.epoch := by
  decide

/-! ## Sorting a sorted sequence again

The contract of `sort.Slice` fixes the result only up to the order of records with the same
`UpdateDate`. -/

theorem strictly_descending (l : List Repo) (hd : Descending l)
    (hnd : (l.map Repo.UpdateDate).Nodup) :
    l.Pairwise (fun a b => lessAfter a b = true) := by
  have hne : l.Pairwise (fun a b => a.UpdateDate ≠ b.UpdateDate) := List.pairwise_map.mp hnd
  refine (hd.and hne).imp ?_
  intro a b h
  obtain ⟨h1, h2⟩ := h
  simp only [lessAfter, Time.After, decide_eq_true_eq, decide_eq_false_iff_not] at *
  have : a.UpdateDate.nsec ≠ b.UpdateDate.nsec := by
    intro hc
    apply h2
    cases ha : a.UpdateDate
    cases hb : b.UpdateDate
    rw [ha, hb] at hc
    simp only at hc
    rw [hc]
  omega

/-- Sorting twice is sorting once when no two records share an `UpdateDate`, whatever
`sort.Slice` does with equal elements. -/
theorem sort_twice_distinct (env : Env) (hsort : SortsSlices env.sortSlice) (s : List Repo)
    (hnd : (s.map Repo.UpdateDate).Nodup) :
    env.sortSlice lessAfter (env.sortSlice lessAfter s) = env.sortSlice lessAfter s := by
  have hp1 := sortSlice_perm env hsort s
  have hp2 := sortSlice_perm env hsort (env.sortSlice lessAfter s)
  have hn1 : ((env.sortSlice lessAfter s).map Repo.UpdateDate).Nodup :=
    ((hp1.map _).nodup_iff).mpr hnd
  have hn2 : ((env.sortSlice lessAfter (env.sortSlice lessAfter s)).map Repo.UpdateDate).Nodup :=
    ((hp2.map _).nodup_iff).mpr hn1
  have hs1 := strictly_descending _ (sortSlice_descending env hsort s) hn1
  have hs2 := strictly_descending _
    (sortSlice_descending env hsort (env.sortSlice lessAfter s)) hn2
  haveI : IsAntisymm Repo (fun a b => lessAfter a b = true) :=
    ⟨fun a b h1 h2 => by
      rw [lessAfter_asymm a b h1] at h2
      exact absurd h2 Bool.false_ne_true⟩
  exact List.eq_of_perm_of_sorted hp2 hs2 hs1

theorem insertBefore_last (less : Repo → Repo → Bool) (x : Repo) (acc : List Repo)
    (h : ∀ y ∈ acc, less x y = false) : insertBefore less x acc = acc ++ [x] := by
  induction acc with
  | nil => rfl
  | cons y ys ih =>
    have hy := h y (List.mem_cons_self _ _)
    simp only [insertBefore, hy, Bool.false_eq_true, if_false, List.cons_append]
    rw [ih (fun z hz => h z (List.mem_cons_of_mem _ hz))]

theorem foldl_insertBefore_sorted (less : Repo → Repo → Bool) (l acc : List Repo)
    (h : (acc ++ l).Pairwise (fun a b => less b a = false)) :
    l.foldl (fun acc x => insertBefore less x acc) acc = acc ++ l := by
  induction l generalizing acc with
  | nil => simp
  | cons x xs ih =>
    have hx : ∀ y ∈ acc, less x y = false := by
      intro y hy
      rw [List.pairwise_append] at h
      exact h.2.2 y hy x (List.mem_cons_self _ _)
    simp only [List.foldl_cons]
    rw [insertBefore_last less x acc hx, ih (acc ++ [x]) (by simpa using h)]
    simp

/-- Insertion sort, which `sort.Slice` runs on a short slice, leaves a descending sequence
as it is, records with the same `UpdateDate` included. -/
theorem insertionSort_descending (l : List Repo) (h : Descending l) :
    insertionSort lessAfter l = l := by
  have := foldl_insertBefore_sorted lessAfter l [] (by simpa [Descending, lessAfter] using h)
  simpa [insertionSort] using this

end Blog
